import Mathlib

/-!
Verification development for the HTML/JSON conversion utility.

The JavaScript source defines three functions:
  - extractAttributes(tagString): tokenizes an opening tag's attribute list
    into a key-to-value mapping (left-to-right, last write wins);
  - htmlToJson(html): a cursor-based scanner turning an HTML string into an
    array of typed nodes (text / comment / element), recursing on the inner
    span of each non-void, non-raw-text element;
  - jsonToHtml(node): the serializer rendering a node or node array back to
    an HTML string.

Strings are modelled as List Char.  JavaScript string primitives
(substring with clamping and swapping, indexOf from an offset, trim,
endsWith) are modelled explicitly below.
-/

namespace Json2Html

/-- Whitespace as matched by JavaScript trim / regex \s on the ASCII range:
space, tab, LF, VT, FF, CR. -/
def isWS (c : Char) : Bool :=
  c == ' ' || c == '\t' || c == '\n' || c == '\r' || c == Char.ofNat 11 || c == Char.ofNat 12

/-- Model of String.prototype.trim: strip leading and trailing whitespace. -/
def trim (l : List Char) : List Char :=
  ((l.dropWhile isWS).reverse.dropWhile isWS).reverse

/-- A character allowed in a tag or attribute name: the class [a-zA-Z0-9_-]
from the source's regexes. -/
def isNameChar (c : Char) : Bool :=
  ('a' ≤ c && c ≤ 'z') || ('A' ≤ c && c ≤ 'Z') || ('0' ≤ c && c ≤ '9') || c == '_' || c == '-'

/-- begins l s: s is a (leading) prefix of l. -/
def begins : List Char → List Char → Bool
  | _, [] => true
  | [], _ :: _ => false
  | a :: l, b :: s => a == b && begins l s

/-- First position j of l such that s occurs in l starting at j. -/
def findSub : List Char → List Char → Option Nat
  | [], s => if begins [] s then some 0 else none
  | a :: t, s =>
    if begins (a :: t) s then some 0
    else (findSub t s).map (fun n => n + 1)

/-- Model of String.prototype.indexOf(s, start) (with start clamped to the
string length, as in JavaScript); none stands for -1. -/
def indexOfFrom (l s : List Char) (start : Nat) : Option Nat :=
  (findSub (l.drop start) s).map (fun n => n + min start l.length)

/-- Model of String.prototype.substring(a, b): clamps both arguments to the
string length and swaps them when a > b. -/
def jsSubstring (l : List Char) (a b : Nat) : List Char :=
  let a' := min a l.length
  let b' := min b l.length
  (l.take (max a' b')).drop (min a' b')

/-- Character at an index (indexing never goes out of range at its use
sites; the default is arbitrary). -/
def getC (l : List Char) (i : Nat) : Char := l.getD i (Char.ofNat 0)

def squote : Char := Char.ofNat 39

def dquote : Char := Char.ofNat 34

/-- Model of str.endsWith("/"). -/
def endsWithSlash (l : List Char) : Bool := l.getLast? == some '/'

/-! ### Specification lemmas for the string primitives -/

theorem begins_length {l s : List Char} (h : begins l s = true) : s.length ≤ l.length := by
  induction l generalizing s with
  | nil => cases s with
    | nil => simp
    | cons b t => simp [begins] at h
  | cons a l ih => cases s with
    | nil => simp
    | cons b t =>
      simp only [begins, Bool.and_eq_true] at h
      simpa [List.length_cons] using ih h.2

theorem begins_append (u v : List Char) : begins (u ++ v) u = true := by
  induction u with
  | nil => cases v <;> rfl
  | cons a t ih => simpa [begins] using ih

theorem begins_iff_eq_take {l s : List Char} : begins l s = true ↔ l.take s.length = s := by
  induction l generalizing s with
  | nil =>
    cases s with
    | nil => simp [begins]
    | cons b t => simp [begins]
  | cons a l ih =>
    cases s with
    | nil => simp [begins]
    | cons b t =>
      simp only [begins, Bool.and_eq_true, beq_iff_eq, List.length_cons, List.take_succ_cons,
        List.cons.injEq]
      exact and_congr Iff.rfl ih

theorem findSub_le {l s : List Char} {j : Nat} (h : findSub l s = some j) : j ≤ l.length := by
  induction l generalizing j with
  | nil =>
    simp only [findSub] at h
    split at h
    · obtain rfl : j = 0 := by simpa using h.symm
      simp
    · simp at h
  | cons a t ih =>
    simp only [findSub] at h
    split at h
    · obtain rfl : j = 0 := by simpa using h.symm
      simp
    · simp only [Option.map_eq_some'] at h
      obtain ⟨j', hj', rfl⟩ := h
      have := ih hj'
      simp only [List.length_cons]
      omega

theorem findSub_begins {l s : List Char} {j : Nat} (h : findSub l s = some j) :
    begins (l.drop j) s = true := by
  induction l generalizing j with
  | nil =>
    simp only [findSub] at h
    split at h
    · simp_all
    · simp at h
  | cons a t ih =>
    simp only [findSub] at h
    split at h
    · rename_i hb
      obtain rfl : j = 0 := by simpa using h.symm
      simpa using hb
    · simp only [Option.map_eq_some'] at h
      obtain ⟨j', hj', rfl⟩ := h
      simpa using ih hj'

theorem findSub_none {l s : List Char} (h : findSub l s = none) (j : Nat) :
    begins (l.drop j) s = false := by
  induction l generalizing j with
  | nil =>
    simp only [findSub] at h
    split at h
    · simp_all
    · rename_i hb
      simpa [List.drop_nil] using Bool.eq_false_iff.mpr (by simpa using hb)
  | cons a t ih =>
    simp only [findSub] at h
    split at h
    · simp_all
    · rename_i hb
      simp only [Option.map_eq_none'] at h
      cases j with
      | zero => simpa using Bool.eq_false_iff.mpr (by simpa using hb)
      | succ j' => simpa using ih h j'

/-- The index returned by findSub is the first occurrence. -/
theorem findSub_first {l s : List Char} {j : Nat} (h : findSub l s = some j) :
    ∀ k < j, begins (l.drop k) s = false := by
  induction l generalizing j with
  | nil =>
    simp only [findSub] at h
    split at h
    · obtain rfl : j = 0 := by simpa using h.symm
      intro k hk
      exact absurd hk (by omega)
    · simp at h
  | cons a t ih =>
    simp only [findSub] at h
    split at h
    · obtain rfl : j = 0 := by simpa using h.symm
      intro k hk
      exact absurd hk (by omega)
    · rename_i hb
      simp only [Option.map_eq_some'] at h
      obtain ⟨j', hj', rfl⟩ := h
      intro k hk
      cases k with
      | zero => simpa using Bool.eq_false_iff.mpr (by simpa using hb)
      | succ k' => simpa using ih hj' k' (by omega)

theorem indexOfFrom_some {l s : List Char} {start j : Nat}
    (h : indexOfFrom l s start = some j) :
    min start l.length ≤ j ∧ j + s.length ≤ l.length ∧ begins (l.drop j) s = true := by
  simp only [indexOfFrom, Option.map_eq_some'] at h
  obtain ⟨j', hj', rfl⟩ := h
  have h1 := findSub_le hj'
  have h2 := findSub_begins hj'
  have hd : (l.drop start).length = l.length - start := by simp
  refine ⟨by omega, ?_, ?_⟩
  · have hb := begins_length h2
    have hdd : ((l.drop start).drop j').length = l.length - (start + j') := by
      simp
    rw [hdd] at hb
    omega
  · rcases Nat.le_total start l.length with hs | hs
    · have : min start l.length = start := by omega
      rw [this]
      have : l.drop (j' + start) = (l.drop start).drop j' := by
        rw [List.drop_drop]
        congr 1
        omega
      rw [this]
      exact h2
    · have hnil : l.drop start = [] := by
        apply List.drop_eq_nil_of_le
        omega
      rw [hnil] at hj' h2
      have : min start l.length = l.length := by omega
      rw [this]
      have hj0 : j' = 0 := by
        have := findSub_le hj'
        simp at this
        omega
      subst hj0
      simp only [List.drop_nil] at h2
      simpa [List.drop_length] using h2

theorem indexOfFrom_ge {l s : List Char} {start j : Nat} (hs : start ≤ l.length)
    (h : indexOfFrom l s start = some j) : start ≤ j := by
  have := (indexOfFrom_some h).1
  omega

/-- jsSubstring never yields more than the source. -/
theorem jsSubstring_length_le (l : List Char) (a b : Nat) :
    (jsSubstring l a b).length ≤ l.length := by
  simp only [jsSubstring, List.length_drop, List.length_take]
  omega

/-- When both indices are at least one (and the list is nonempty), the
substring is strictly shorter than the whole. -/
theorem jsSubstring_length_lt (l : List Char) {a b : Nat}
    (ha : 1 ≤ a) (hb : 1 ≤ b) (hl : 1 ≤ l.length) :
    (jsSubstring l a b).length < l.length := by
  simp only [jsSubstring, List.length_drop, List.length_take]
  omega

/-! ### The node data model -/

/-- A parsed node: the tagged variants produced by htmlToJson.  Attributes
are an insertion-ordered association list (the model of a JavaScript object
whose keys are set in insertion order). -/
inductive Node where
  | text (content : List Char)
  | comment (content : List Char)
  | element (tagName : List Char) (attributes : List (List Char × List Char)) (children : List Node)

/-- The void-element list from the source. -/
def voidTags : List (List Char) :=
  ["br".data, "img".data, "input".data, "link".data, "meta".data,
   "hr".data, "source".data, "area".data]

/-! ### The attribute extractor -/

/-- attributes[key] = value on a JavaScript object: overwrite in place if the
key is present (keeping its insertion position), else append. -/
def insertAttr (m : List (List Char × List Char)) (k v : List Char) :
    List (List Char × List Char) :=
  if m.any (fun p => p.1 == k) then
    m.map (fun p => if p.1 == k then (k, v) else p)
  else m ++ [(k, v)]

/-- Split a list at the first occurrence of the character c: returns the part
strictly before and strictly after it (the model of a greedy [^c]* capture
closed by c). -/
def splitAtChar (c : Char) : List Char → Option (List Char × List Char)
  | [] => none
  | a :: t =>
    if a == c then some ([], t)
    else (splitAtChar c t).map (fun p => (a :: p.1, p.2))

theorem dropWhile_length_le (p : Char → Bool) (l : List Char) :
    (l.dropWhile p).length ≤ l.length := by
  induction l with
  | nil => simp
  | cons a t ih =>
    by_cases h : p a
    · rw [List.dropWhile_cons_of_pos h]
      simp only [List.length_cons]
      omega
    · rw [List.dropWhile_cons_of_neg h]

theorem splitAtChar_lt {c : Char} {l v r : List Char}
    (h : splitAtChar c l = some (v, r)) : r.length < l.length := by
  induction l generalizing v r with
  | nil => simp [splitAtChar] at h
  | cons a t ih =>
    simp only [splitAtChar] at h
    split at h
    · simp only [Option.some.injEq, Prod.mk.injEq] at h
      obtain ⟨rfl, rfl⟩ := h
      simp
    · simp only [Option.map_eq_some'] at h
      obtain ⟨⟨v', r'⟩, hp, he⟩ := h
      simp only [Prod.mk.injEq] at he
      obtain ⟨rfl, rfl⟩ := he
      have := ih hp
      simp only [List.length_cons]
      omega

/-- One run of the global attribute regex
([a-zA-Z0-9_-]+)(?:\\s*=\\s*(?:squote[^sq]*squote|dquote[^dq]*dquote))? via exec,
starting at the current cursor: skip to the first name character, take the
maximal identifier run, then try the optional =-and-quoted-value part (an
unquoted right-hand side makes the optional part match empty, so the match
is the identifier alone).  Returns the key/value pair and the suffix after
the match (the new lastIndex), or none when no further match exists. -/
def attrExec (s : List Char) : Option ((List Char × List Char) × List Char) :=
  match s.dropWhile (fun c => !(isNameChar c)) with
  | [] => none
  | c :: t =>
    let name := c :: t.takeWhile isNameChar
    let after := t.dropWhile isNameChar
    match after.dropWhile isWS with
    | '=' :: rest2 =>
      match rest2.dropWhile isWS with
      | q :: rest4 =>
        if q == squote then
          match splitAtChar squote rest4 with
          | some (v, rest5) => some ((name, v), rest5)
          | none => some ((name, []), after)
        else if q == dquote then
          match splitAtChar dquote rest4 with
          | some (v, rest5) => some ((name, v), rest5)
          | none => some ((name, []), after)
        else some ((name, []), after)
      | [] => some ((name, []), after)
    | _ => some ((name, []), after)

/-- Each regex match consumes at least one character of the input. -/
theorem attrExec_lt {s k v rest : List Char}
    (h : attrExec s = some ((k, v), rest)) : rest.length < s.length := by
  unfold attrExec at h
  have hd := dropWhile_length_le (fun c => !(isNameChar c)) s
  split at h
  · exact absurd h (by simp)
  · rename_i c t hct
    rw [hct] at hd
    simp only [List.length_cons] at hd
    have hafter := dropWhile_length_le isNameChar t
    have hA := dropWhile_length_le isWS (t.dropWhile isNameChar)
    (try dsimp only at h)
    split at h
    · rename_i rest2 h1
      rw [h1] at hA
      simp only [List.length_cons] at hA
      have hB := dropWhile_length_le isWS rest2
      split at h
      · rename_i q rest4 h2
        rw [h2] at hB
        simp only [List.length_cons] at hB
        split at h
        · split at h
          · rename_i p v5 rest5 h3
            have h5 := splitAtChar_lt h3
            simp only [Option.some.injEq, Prod.mk.injEq] at h
            obtain ⟨⟨rfl, rfl⟩, rfl⟩ := h
            omega
          · simp only [Option.some.injEq, Prod.mk.injEq] at h
            obtain ⟨⟨rfl, rfl⟩, rfl⟩ := h
            omega
        · split at h
          · split at h
            · rename_i p v5 rest5 h3
              have h5 := splitAtChar_lt h3
              simp only [Option.some.injEq, Prod.mk.injEq] at h
              obtain ⟨⟨rfl, rfl⟩, rfl⟩ := h
              omega
            · simp only [Option.some.injEq, Prod.mk.injEq] at h
              obtain ⟨⟨rfl, rfl⟩, rfl⟩ := h
              omega
          · simp only [Option.some.injEq, Prod.mk.injEq] at h
            obtain ⟨⟨rfl, rfl⟩, rfl⟩ := h
            omega
      · simp only [Option.some.injEq, Prod.mk.injEq] at h
        obtain ⟨⟨rfl, rfl⟩, rfl⟩ := h
        omega
    · simp only [Option.some.injEq, Prod.mk.injEq] at h
      obtain ⟨⟨rfl, rfl⟩, rfl⟩ := h
      omega

/-- Scanning loop of extractAttributes: run the regex repeatedly, recording
each identifier-to-value pair (insertion-ordered, last write wins). -/
def scanAttrs (s : List Char) (acc : List (List Char × List Char)) :
    List (List Char × List Char) :=
  match h : attrExec s with
  | none => acc
  | some ((k, v), rest) => scanAttrs rest (insertAttr acc k v)
termination_by s.length
decreasing_by exact attrExec_lt h

/-- Fuel-indexed mirror of scanAttrs (structurally recursive, hence
computable by the kernel); none when the fuel runs out. -/
def scanAttrsF : Nat → List Char → List (List Char × List Char) →
    Option (List (List Char × List Char))
  | 0, _, _ => none
  | Nat.succ fuel, s, acc =>
    match attrExec s with
    | none => some acc
    | some ((k, v), rest) => scanAttrsF fuel rest (insertAttr acc k v)

/-- With fuel exceeding the input length, the fuel-indexed scanner computes
scanAttrs: every iteration of the attribute loop consumes at least one
input character. -/
theorem scanAttrsF_eq_scanAttrs (s : List Char) (acc : List (List Char × List Char)) :
    ∀ fuel, s.length < fuel → scanAttrsF fuel s acc = some (scanAttrs s acc) := by
  induction s, acc using scanAttrs.induct with
  | case1 s acc hex =>
    intro fuel hf
    cases fuel with
    | zero => exact absurd hf (by omega)
    | succ n => rw [scanAttrs, hex]; simp [scanAttrsF, hex]
  | case2 s acc k v rest hex ih =>
    intro fuel hf
    cases fuel with
    | zero => exact absurd hf (by omega)
    | succ n =>
      have hlt := attrExec_lt hex
      rw [scanAttrs, hex]
      simp only [scanAttrsF, hex]
      exact ih n (by omega)

/-- extractAttributes from the source: scan the attribute list left to
right with the regex, recording identifier-to-value pairs.  Defined through
the fuel mirror (with always-sufficient fuel, see scanAttrsF_eq_scanAttrs
and extractAttributes_eq) so that the kernel can evaluate it. -/
def extractAttributes (tagString : List Char) : List (List Char × List Char) :=
  (scanAttrsF (tagString.length + 1) tagString []).getD []

/-- extractAttributes is the attribute-scanning loop started on an empty
mapping: the fuel in its definition is always sufficient. -/
theorem extractAttributes_eq (s : List Char) : extractAttributes s = scanAttrs s [] := by
  rw [extractAttributes, scanAttrsF_eq_scanAttrs s [] (s.length + 1) (by omega)]
  rfl

/-! ### The serializer jsonToHtml -/

/-- Attribute rendering of jsonToHtml: each pair renders as a leading space
plus key (empty value) or key="value" (non-empty value), in mapping order. -/
def attrsToString : List (List Char × List Char) → List Char
  | [] => []
  | (k, v) :: rest =>
    (if v = [] then ' ' :: k else (' ' :: k) ++ ('=' :: dquote :: v) ++ [dquote]) ++
      attrsToString rest

mutual
/-- jsonToHtml on a single node, as in the source's switch. -/
def jsonToHtml : Node → List Char
  | .text content => content
  | .comment content => "<!-- ".data ++ content ++ " -->".data
  | .element tagName attributes children =>
    let attrString := attrsToString attributes
    let isSelfClosing := voidTags.contains tagName
    if isSelfClosing then
      ('<' :: (tagName ++ attrString)) ++ ['>']
    else
      (('<' :: (tagName ++ attrString)) ++ ['>']) ++ jsonToHtmlList children ++
        (('<' :: '/' :: tagName) ++ ['>'])

/-- jsonToHtml on an array of nodes: map and join with no separator. -/
def jsonToHtmlList : List Node → List Char
  | [] => []
  | n :: rest => jsonToHtml n ++ jsonToHtmlList rest
end

/-! ### The parser htmlToJson -/

/-- Outcome of one iteration of the htmlToJson scanning loop. -/
inductive Step where
  /-- The loop ends (end of input, truncated tag, or cursor at the end),
  after pushing the given nodes. -/
  | stop (nodes : List Node)
  /-- Push the given nodes and continue scanning at the new cursor. -/
  | jump (nodes : List Node) (next : Nat)
  /-- A non-void, non-raw-text element whose inner span must be parsed
  recursively: push pre, then the element with the parse of inner as its
  children, then continue at the new cursor. -/
  | elem (pre : List Node) (tagName : List Char)
      (attributes : List (List Char × List Char)) (inner : List Char) (next : Nat)

/-- One iteration of the main parsing loop of htmlToJson, at cursor
index: locate the next < (emitting any text before it), then dispatch on
comment, opening tag (with attribute extraction, self-closing detection,
closing-tag search, raw-text handling for script) or stray closing tag,
exactly as in the source. -/
def scanStep (html : List Char) (index : Nat) : Step :=
  if index < html.length then
    match indexOfFrom html ['<'] index with
    | none =>
      let remainingText := trim (html.drop index)
      if remainingText.length > 0 then .stop [Node.text remainingText] else .stop []
    | some i =>
      let textBeforeTag := trim (jsSubstring html index i)
      let pre := if textBeforeTag.length > 0 then [Node.text textBeforeTag] else []
      if i + 1 ≥ html.length then .stop pre
      else if jsSubstring html i (i + 4) = "<!--".data then
        match indexOfFrom html "-->".data i with
        | some commentEnd =>
          let commentContent := trim (jsSubstring html (i + 4) commentEnd)
          .jump (pre ++ [Node.comment commentContent]) (commentEnd + 3)
        | none => .jump pre (i + 1)
      else if getC html i = '<' ∧ getC html (i + 1) ≠ '/' then
        match indexOfFrom html ['>'] i with
        | none => .stop pre
        | some tagEnd =>
          let fullTagContent := trim (jsSubstring html (i + 1) tagEnd)
          let tagNameRaw := fullTagContent.takeWhile isNameChar
          if tagNameRaw.length = 0 then .jump pre (i + 1)
          else
            let tagName := tagNameRaw.map Char.toLower
            let attributesString := trim (fullTagContent.drop tagName.length)
            let attributes := extractAttributes attributesString
            let afterOpen := tagEnd + 1
            let endTag := ('<' :: '/' :: tagName) ++ ['>']
            let isSelfClosing := endsWithSlash fullTagContent || voidTags.contains tagName
            match indexOfFrom html endTag afterOpen with
            | none => .jump (pre ++ [Node.element tagName attributes []]) afterOpen
            | some endTagIndex =>
              if isSelfClosing then
                .jump (pre ++ [Node.element tagName attributes []]) afterOpen
              else
                let innerHTML := jsSubstring html afterOpen endTagIndex
                if tagName = "script".data then
                  let children :=
                    if (trim innerHTML).length > 0 then [Node.text innerHTML] else []
                  .jump (pre ++ [Node.element tagName attributes children])
                    (endTagIndex + endTag.length)
                else .elem pre tagName attributes innerHTML (endTagIndex + endTag.length)
      else .jump pre (i + 1)
  else .stop []

/-! ### Node predicates -/

/-- Discriminator for text nodes. -/
def isTextNode : Node → Bool
  | .text _ => true
  | _ => false

mutual
/-- Void-element invariant on a node: an element whose tag is in the void
list has empty children, recursively. -/
def voidOK : Node → Bool
  | .text _ => true
  | .comment _ => true
  | .element tagName _ children =>
    (!(voidTags.contains tagName) || children.isEmpty) && voidOKList children

/-- Void-element invariant on a node sequence. -/
def voidOKList : List Node → Bool
  | [] => true
  | n :: rest => voidOK n && voidOKList rest
end

theorem voidOKList_append {a b : List Node} (ha : voidOKList a = true)
    (hb : voidOKList b = true) : voidOKList (a ++ b) = true := by
  induction a with
  | nil => simpa using hb
  | cons n rest ih =>
    simp only [voidOKList, Bool.and_eq_true] at ha
    simp only [List.cons_append, voidOKList, Bool.and_eq_true]
    exact ⟨ha.1, ih ha.2⟩

/-- A jump step always moves the cursor strictly forward (and only occurs
strictly inside the input): the loop's forward-progress guarantee. -/
theorem scanStep_jump {html : List Char} {index : Nat} {ns : List Node} {next : Nat}
    (h : scanStep html index = .jump ns next) : index < next ∧ index < html.length := by
  unfold scanStep at h
  split at h
  case isFalse => exact absurd h (by simp)
  rename_i hidx
  refine ⟨?_, hidx⟩
  split at h
  · (try dsimp only at h)
    split at h <;> exact absurd h (by simp)
  · rename_i i hfound
    have hi : index ≤ i := indexOfFrom_ge (by omega) hfound
    (try dsimp only at h)
    split at h
    · exact absurd h (by simp)
    split at h
    · -- comment open
      split at h
      · rename_i commentEnd hce
        have := (indexOfFrom_some hce).1
        injection h with h1 h2
        omega
      · injection h with h1 h2
        omega
    split at h
    · -- opening tag
      split at h
      · exact absurd h (by simp)
      rename_i tagEnd hte
      have hten : index ≤ tagEnd := by
        have := (indexOfFrom_some hte).1
        omega
      split at h
      · injection h with h1 h2
        omega
      (try dsimp only at h)
      split at h
      · injection h with h1 h2
        omega
      rename_i endTagIndex het
      have hetn := (indexOfFrom_some het).1
      split at h
      · injection h with h1 h2
        omega
      · split at h
        · injection h with h1 h2
          have : index < endTagIndex := by omega
          omega
        · exact absurd h (by simp)
    · -- stray closing tag or fallthrough
      injection h with h1 h2
      omega

/-- An element step moves the cursor strictly forward and hands the
recursion an inner span strictly shorter than the input (it even fits,
with the element's delimiters, in the input after the cursor). -/
theorem scanStep_elem {html : List Char} {index : Nat} {pre : List Node}
    {tagName : List Char} {attributes : List (List Char × List Char)}
    {inner : List Char} {next : Nat}
    (h : scanStep html index = .elem pre tagName attributes inner next) :
    index < next ∧ inner.length + index + 2 ≤ html.length ∧
      voidOKList pre = true ∧ voidTags.contains tagName = false := by
  unfold scanStep at h
  split at h
  case isFalse => exact absurd h (by simp)
  rename_i hidx
  split at h
  · (try dsimp only at h)
    split at h <;> exact absurd h (by simp)
  · rename_i i hfound
    have hi : index ≤ i := indexOfFrom_ge (by omega) hfound
    (try dsimp only at h)
    split at h
    · exact absurd h (by simp)
    rename_i hlen
    split at h
    · split at h <;> exact absurd h (by simp)
    split at h
    · split at h
      · exact absurd h (by simp)
      rename_i tagEnd hte
      have hten : index ≤ tagEnd := by
        have := (indexOfFrom_some hte).1
        omega
      split at h
      · exact absurd h (by simp)
      rename_i hraw
      (try dsimp only at h)
      split at h
      · exact absurd h (by simp)
      rename_i endTagIndex het
      have hetn := (indexOfFrom_some het).1
      have hetlen := (indexOfFrom_some het).2.1
      split at h
      · exact absurd h (by simp)
      · rename_i hsc
        split at h
        · exact absurd h (by simp)
        · injection h with h1 h2 h3 h4 h5
          subst h1 h2 h4 h5
          have hL : (('<' :: '/' :: (List.takeWhile isNameChar
              (trim (jsSubstring html (i + 1) tagEnd))).map Char.toLower) ++ ['>']).length =
              (List.takeWhile isNameChar (trim (jsSubstring html (i + 1) tagEnd))).length + 3 := by
            simp
          have hraw1 : 1 ≤
              (List.takeWhile isNameChar (trim (jsSubstring html (i + 1) tagEnd))).length := by
            omega
          have hsub : (jsSubstring html (tagEnd + 1) endTagIndex).length =
              max (min (tagEnd + 1) html.length) (min endTagIndex html.length) -
                min (min (tagEnd + 1) html.length) (min endTagIndex html.length) := by
            simp only [jsSubstring, List.length_drop, List.length_take]
            omega
          rw [hL] at hetlen
          refine ⟨by omega, ?_, ?_, ?_⟩
          · rw [hsub]
            omega
          · split <;> rfl
          · simp only [Bool.or_eq_true, not_or, Bool.not_eq_true] at hsc
            exact hsc.2
    · exact absurd h (by simp)

/-- The main parsing loop of htmlToJson: run scanStep repeatedly; an elem
step recurses on the element's inner span (a strictly shorter string), as
the source recurses on innerHTML. -/
def scan (html : List Char) (index : Nat) : List Node :=
  match h : scanStep html index with
  | .stop nodes => nodes
  | .jump nodes next => nodes ++ scan html next
  | .elem pre tagName attributes inner next =>
    pre ++ (Node.element tagName attributes (scan inner 0) :: scan html next)
termination_by (html.length, html.length - index)
decreasing_by
  · have hp := scanStep_jump h
    exact Prod.Lex.right html.length (by omega)
  · obtain ⟨hp1, hp2, -, -⟩ := scanStep_elem h
    exact Prod.Lex.left _ _ (by omega)
  · obtain ⟨hp1, hp2, -, -⟩ := scanStep_elem h
    exact Prod.Lex.right html.length (by omega)

/-- htmlToJson from the source: parse the whole string from cursor 0. -/
def htmlToJson (html : List Char) : List Node := scan html 0

/-- Fuel-indexed mirror of scan (structurally recursive, hence computable
by the kernel); none when the fuel runs out. -/
def scanF : Nat → List Char → Nat → Option (List Node)
  | 0, _, _ => none
  | Nat.succ fuel, html, index =>
    match scanStep html index with
    | .stop nodes => some nodes
    | .jump nodes next => (scanF fuel html next).map (fun r => nodes ++ r)
    | .elem pre tagName attributes inner next =>
      match scanF fuel inner 0, scanF fuel html next with
      | some children, some r =>
        some (pre ++ (Node.element tagName attributes children :: r))
      | _, _ => none

/-- With fuel exceeding the input length remaining after the cursor, the
fuel-indexed scanner computes scan: every iteration of the scanning loop
either stops or advances the cursor by at least one character, and an
element recursion works on an inner span shorter than the remaining
input. -/
theorem scanF_eq_scan (html : List Char) (index : Nat) :
    ∀ fuel, html.length - index < fuel → scanF fuel html index = some (scan html index) := by
  induction html, index using scan.induct with
  | case1 html index nodes hstep =>
    intro fuel hf
    cases fuel with
    | zero => exact absurd hf (by omega)
    | succ n =>
      rw [scan, hstep]
      simp [scanF, hstep]
  | case2 html index nodes next hstep ih =>
    intro fuel hf
    cases fuel with
    | zero => exact absurd hf (by omega)
    | succ n =>
      have hp := scanStep_jump hstep
      rw [scan, hstep]
      simp only [scanF, hstep]
      rw [ih n (by omega)]
      rfl
  | case3 html index pre tagName attributes inner next hstep ih1 ih2 =>
    intro fuel hf
    cases fuel with
    | zero => exact absurd hf (by omega)
    | succ n =>
      obtain ⟨hp1, hp2, -, -⟩ := scanStep_elem hstep
      rw [scan, hstep]
      simp only [scanF, hstep]
      rw [ih1 n (by omega), ih2 n (by omega)]

/-- Evaluation helper: to compute htmlToJson, run the fuel mirror. -/
theorem htmlToJson_eval {html : List Char} {v : List Node}
    (h : scanF (html.length + 1) html 0 = some v) : htmlToJson html = v := by
  have := scanF_eq_scan html 0 (html.length + 1) (by omega)
  rw [this] at h
  simpa [htmlToJson] using Option.some.inj h

/-! ### Emission lemmas for one scanning step -/

set_option maxHeartbeats 1000000 in
theorem scanStep_stop_voidOK {html : List Char} {index : Nat} {ns : List Node}
    (h : scanStep html index = .stop ns) : voidOKList ns = true := by
  unfold scanStep at h
  repeat'
    first
    | (split at h)
    | ((try dsimp only at h); split at h)
  all_goals injection h
  all_goals rename_i h1
  all_goals subst h1
  all_goals rfl

set_option maxHeartbeats 1000000 in
theorem scanStep_jump_voidOK {html : List Char} {index : Nat} {ns : List Node} {next : Nat}
    (h : scanStep html index = .jump ns next) : voidOKList ns = true := by
  unfold scanStep at h
  repeat'
    first
    | (split at h)
    | ((try dsimp only at h); split at h)
  all_goals injection h
  all_goals rename_i h1 h2
  all_goals subst h1
  all_goals
    first
    | rfl
    | (simp [voidOKList, voidOK]
       done)
    | (rename_i hs hx hy
       simp [voidOKList, voidOK, hs]
       try decide
       done)

/-- The void-element invariant holds of every parse result, at every cursor:
void elements never receive children. -/
theorem scan_voidOK (html : List Char) (index : Nat) :
    voidOKList (scan html index) = true := by
  induction html, index using scan.induct with
  | case1 html index nodes hstep =>
    rw [scan, hstep]
    exact scanStep_stop_voidOK hstep
  | case2 html index nodes next hstep ih =>
    rw [scan, hstep]
    exact voidOKList_append (scanStep_jump_voidOK hstep) ih
  | case3 html index pre tagName attributes inner next hstep ih1 ih2 =>
    rw [scan, hstep]
    obtain ⟨-, -, hpre, hvoid⟩ := scanStep_elem hstep
    apply voidOKList_append hpre
    simp only [voidOKList, voidOK, Bool.and_eq_true, hvoid]
    exact ⟨⟨rfl, ih1⟩, ih2⟩

/-! ### More facts about the string search primitives -/

/-- The closing-tag (and any) search returns the first occurrence at or
after the start position. -/
theorem indexOfFrom_first {l s : List Char} {start j : Nat}
    (h : indexOfFrom l s start = some j) :
    ∀ k, min start l.length ≤ k → k < j → begins (l.drop k) s = false := by
  simp only [indexOfFrom, Option.map_eq_some'] at h
  obtain ⟨j', hj', rfl⟩ := h
  intro k hk1 hk2
  rcases Nat.le_total start l.length with hs | hs
  · have hmin : min start l.length = start := by omega
    rw [hmin] at hk1 hk2
    have := findSub_first hj' (k - start) (by omega)
    have hdd : (l.drop start).drop (k - start) = l.drop k := by
      rw [List.drop_drop]
      congr 1
      omega
    rwa [hdd] at this
  · have hnil : l.drop start = [] := by
      apply List.drop_eq_nil_of_le
      omega
    rw [hnil] at hj'
    have hj0 : j' = 0 := by
      have := findSub_le hj'
      simp at this
      omega
    subst hj0
    have hmin : min start l.length = l.length := by omega
    rw [hmin] at hk1
    omega

/-- occurs x s: x occurs somewhere in s as a consecutive substring. -/
def occurs (x s : List Char) : Bool := (findSub s x).isSome

theorem occurs_of_begins_drop {x s : List Char} {j : Nat}
    (h : begins (s.drop j) x = true) : occurs x s = true := by
  unfold occurs
  cases hf : findSub s x with
  | none => exact absurd h (by simp [findSub_none hf j])
  | some m => rfl

theorem occurs_of_split {x s u w : List Char} (h : s = u ++ (x ++ w)) :
    occurs x s = true := by
  apply occurs_of_begins_drop (j := u.length)
  rw [h, List.drop_left]
  exact begins_append x w

theorem occurs_mono {x u rest : List Char} (h : occurs x rest = true) :
    occurs x (u ++ rest) = true := by
  unfold occurs at h
  cases hf : findSub rest x with
  | none => rw [hf] at h; exact absurd h (by simp)
  | some j =>
    have hb := findSub_begins hf
    apply occurs_of_begins_drop (j := u.length + j)
    rwa [← List.drop_drop, List.drop_left]

/-! ### jsSubstring and getC translation lemmas -/

theorem list_take_of_length_le {k : Nat} {u : List Char} (h : u.length ≤ k) :
    u.take k = u :=
  List.take_of_length_le h

/-- jsSubstring from i to i + k is take k of the suffix at i. -/
theorem jsSubstring_take {l : List Char} {i : Nat} (hi : i ≤ l.length) (k : Nat) :
    jsSubstring l i (i + k) = (l.drop i).take k := by
  unfold jsSubstring
  dsimp only
  have h2 : min (min i l.length) (min (i + k) l.length) = i := by omega
  have h3 : max (min i l.length) (min (i + k) l.length) = min (i + k) l.length := by omega
  rw [h2, h3, List.drop_take]
  rcases Nat.le_total (i + k) l.length with hle | hle
  · have he : min (i + k) l.length - i = k := by omega
    rw [he]
  · have he : min (i + k) l.length - i = l.length - i := by omega
    rw [he]
    rw [list_take_of_length_le (by simp), list_take_of_length_le (by simp; omega)]

/-- jsSubstring between two in-range offsets of the suffix at i. -/
theorem jsSubstring_shift {l : List Char} {i a b : Nat} (hab : a ≤ b)
    (hb : i + b ≤ l.length) :
    jsSubstring l (i + a) (i + b) = ((l.drop i).drop a).take (b - a) := by
  unfold jsSubstring
  dsimp only
  have h1 : min (i + a) l.length = i + a := by omega
  have h2 : min (i + b) l.length = i + b := by omega
  rw [h1, h2]
  have h3 : min (i + a) (i + b) = i + a := by omega
  have h4 : max (i + a) (i + b) = i + b := by omega
  rw [h3, h4, List.drop_take, List.drop_drop]
  have h5 : i + b - (i + a) = b - a := by omega
  rw [h5]

theorem getC_drop {l : List Char} {i k : Nat} (h : i + k < l.length) :
    getC l (i + k) = getC (l.drop i) k := by
  unfold getC
  rw [List.getD_eq_getElem?_getD, List.getD_eq_getElem?_getD, List.getElem?_drop]

/-! ### Attribute mapping lemmas -/

/-- Look an attribute key up in the mapping (first, hence unique, match). -/
def getAttr : List (List Char × List Char) → List Char → Option (List Char)
  | [], _ => none
  | (k', v) :: t, k => if k' == k then some v else getAttr t k

theorem getAttr_map_overwrite {t : List (List Char × List Char)} {k v : List Char}
    (h : t.any (fun p => p.1 == k) = true) :
    getAttr (t.map (fun p => if p.1 == k then (k, v) else p)) k = some v := by
  induction t with
  | nil => simp at h
  | cons p rest ih =>
    obtain ⟨k1, v1⟩ := p
    simp only [List.map_cons]
    try dsimp only
    by_cases hp : (k1 == k) = true
    · rw [if_pos hp]
      simp only [getAttr]
      rw [if_pos (by simp)]
    · rw [if_neg hp]
      simp only [getAttr]
      rw [if_neg hp]
      apply ih
      simp only [List.any_cons] at h
      try dsimp only at h
      rw [Bool.or_eq_true] at h
      rcases h with h | h
      · exact absurd h hp
      · exact h

theorem getAttr_append_new {t : List (List Char × List Char)} {k v : List Char}
    (h : t.any (fun p => p.1 == k) = false) :
    getAttr (t ++ [(k, v)]) k = some v := by
  induction t with
  | nil =>
    simp only [List.nil_append, getAttr]
    rw [if_pos (by simp)]
  | cons p rest ih =>
    obtain ⟨k1, v1⟩ := p
    simp only [List.any_cons, Bool.or_eq_false_iff] at h
    simp only [List.cons_append, getAttr]
    rw [if_neg (by simpa using h.1)]
    exact ih h.2

/-- Last write wins: after insertAttr m k v, the key k maps to v. -/
theorem insertAttr_getAttr (m : List (List Char × List Char)) (k v : List Char) :
    getAttr (insertAttr m k v) k = some v := by
  unfold insertAttr
  split
  · rename_i h
    exact getAttr_map_overwrite h
  · rename_i h
    rw [Bool.not_eq_true] at h
    exact getAttr_append_new h

theorem insertAttr_mem {m : List (List Char × List Char)} {k v k' v' : List Char}
    (h : (k, v) ∈ insertAttr m k' v') : (k, v) ∈ m ∨ (k = k' ∧ v = v') := by
  unfold insertAttr at h
  split at h
  · rw [List.mem_map] at h
    obtain ⟨p, hp, he⟩ := h
    split at he
    · cases he
      exact Or.inr ⟨rfl, rfl⟩
    · left
      rwa [he] at hp
  · rw [List.mem_append] at h
    rcases h with h | h
    · exact Or.inl h
    · right
      simp only [List.mem_singleton, Prod.mk.injEq] at h
      exact h

/-! ### Branch characterization lemmas for the scanner -/

theorem begins_head {u : List Char} {c : Char} {s : List Char}
    (h : begins u (c :: s) = true) : getC u 0 = c := by
  cases u with
  | nil => simp [begins] at h
  | cons a t =>
    simp only [begins, Bool.and_eq_true, beq_iff_eq] at h
    simp [getC, h.1]

/-- The character the cursor's < search found is the character <. -/
theorem indexOfFrom_lt_char {html : List Char} {index i : Nat}
    (hidx : index ≤ html.length)
    (hfound : indexOfFrom html ['<'] index = some i) (hi : i < html.length) :
    getC html i = '<' := by
  have hb := (indexOfFrom_some hfound).2.2
  have h0 : getC (html.drop i) 0 = '<' := begins_head hb
  have := getC_drop (l := html) (i := i) (k := 0) (by omega)
  rw [Nat.add_zero] at this
  rw [this]
  exact h0

/-- A stray closing tag: the < is skipped (cursor moves one character) and no
node is produced for it beyond any pending text. -/
theorem scanStep_closing {html : List Char} {index i : Nat}
    (hidx : index < html.length)
    (hfound : indexOfFrom html ['<'] index = some i)
    (hlen : i + 1 < html.length)
    (hslash : getC html (i + 1) = '/') :
    scanStep html index =
      .jump (if (trim (jsSubstring html index i)).length > 0
        then [Node.text (trim (jsSubstring html index i))] else []) (i + 1) := by
  have hcm : jsSubstring html i (i + 4) ≠ "<!--".data := by
    intro hc
    rw [jsSubstring_take (by omega) 4] at hc
    have h2 : getC html (i + 1) = '!' := by
      rw [getC_drop (l := html) (i := i) (k := 1) (by omega)]
      cases hu : html.drop i with
      | nil => rw [hu] at hc; simp at hc
      | cons x u1 =>
        cases u1 with
        | nil => rw [hu] at hc; simp at hc
        | cons y u2 =>
          rw [hu] at hc
          simp only [List.take_succ_cons, List.cons.injEq] at hc
          obtain ⟨-, rfl, -⟩ := hc
          rfl
    rw [hslash] at h2
    exact absurd h2 (by decide)
  unfold scanStep
  rw [if_pos hidx, hfound]
  dsimp only
  rw [if_neg (by omega : ¬ i + 1 ≥ html.length), if_neg hcm,
    if_neg (by intro hp; exact hp.2 hslash)]

theorem scanStep_script {html : List Char} {index i tagEnd endTagIndex : Nat}
    (hidx : index < html.length)
    (hfound : indexOfFrom html ['<'] index = some i)
    (hlen : i + 1 < html.length)
    (hcm : jsSubstring html i (i + 4) ≠ "<!--".data)
    (hslash : getC html (i + 1) ≠ '/')
    (hte : indexOfFrom html ['>'] i = some tagEnd)
    (hscript : ((trim (jsSubstring html (i + 1) tagEnd)).takeWhile isNameChar).map
      Char.toLower = "script".data)
    (hnoslash : endsWithSlash (trim (jsSubstring html (i + 1) tagEnd)) = false)
    (het : indexOfFrom html (('<' :: '/' :: "script".data) ++ ['>']) (tagEnd + 1) =
      some endTagIndex)
    (hinner : (trim (jsSubstring html (tagEnd + 1) endTagIndex)).length > 0) :
    scanStep html index =
      .jump ((if (trim (jsSubstring html index i)).length > 0
          then [Node.text (trim (jsSubstring html index i))] else []) ++
        [Node.element "script".data
          (extractAttributes (trim ((trim (jsSubstring html (i + 1) tagEnd)).drop 6)))
          [Node.text (jsSubstring html (tagEnd + 1) endTagIndex)]])
        (endTagIndex + 9) := by
  have hop : getC html i = '<' :=
    indexOfFrom_lt_char (by omega) hfound (by omega)
  have hraw : ¬ ((trim (jsSubstring html (i + 1) tagEnd)).takeWhile isNameChar).length = 0 := by
    intro h0
    have := congrArg List.length hscript
    simp only [List.length_map, h0] at this
    exact absurd this (by decide)
  unfold scanStep
  rw [if_pos hidx, hfound]
  dsimp only
  rw [if_neg (by omega : ¬ i + 1 ≥ html.length), if_neg hcm,
    if_pos (⟨hop, hslash⟩ : getC html i = '<' ∧ getC html (i + 1) ≠ '/'), hte]
  dsimp only
  rw [if_neg hraw]
  rw [hscript]
  dsimp only
  rw [het]
  dsimp only
  rw [if_neg (show ¬ ((endsWithSlash (trim (jsSubstring html (i + 1) tagEnd)) ||
      voidTags.contains "script".data) = true) from by rw [hnoslash]; decide)]
  rw [if_pos (show ("script".data : List Char) = "script".data from rfl)]
  rw [if_pos hinner]
  rfl

/-! ### Unfolding lemmas for the attribute loop -/

theorem scanAttrs_none {s : List Char} {acc : List (List Char × List Char)}
    (h : attrExec s = none) : scanAttrs s acc = acc := by
  rw [scanAttrs, h]

theorem scanAttrs_some {s k v rest : List Char} {acc : List (List Char × List Char)}
    (h : attrExec s = some ((k, v), rest)) :
    scanAttrs s acc = scanAttrs rest (insertAttr acc k v) := by
  rw [scanAttrs, h]

/-- A bare identifier (a boolean attribute): one match covering the whole
input, with the empty string as value. -/
theorem attrExec_name_only {s : List Char} (hne : s ≠ [])
    (hname : ∀ c ∈ s, isNameChar c = true) :
    attrExec s = some ((s, []), []) := by
  cases s with
  | nil => exact absurd rfl hne
  | cons c t =>
    have hc : isNameChar c = true := hname c (by simp)
    have hdw : (c :: t).dropWhile (fun x => !(isNameChar x)) = c :: t := by
      rw [List.dropWhile_cons_of_neg]
      simp [hc]
    have htw : t.takeWhile isNameChar = t :=
      List.takeWhile_eq_self_iff.mpr (fun x hx => hname x (by simp [hx]))
    have hdw2 : t.dropWhile isNameChar = [] :=
      List.dropWhile_eq_nil_iff.mpr (fun x hx => hname x (by simp [hx]))
    unfold attrExec
    rw [hdw]
    dsimp only
    rw [htw, hdw2]
    rfl

/-- extractAttributes of a bare identifier maps it to the empty string. -/
theorem extractAttributes_name_only {s : List Char} (hne : s ≠ [])
    (hname : ∀ c ∈ s, isNameChar c = true) :
    extractAttributes s = [(s, [])] := by
  rw [extractAttributes_eq, scanAttrs_some (attrExec_name_only hne hname),
    scanAttrs_none (by rfl)]
  rfl

/-- The serializer renders an empty-valued attribute as a space and the bare
key, with no ="" part. -/
theorem attrsToString_bool (k : List Char) (rest : List (List Char × List Char)) :
    attrsToString ((k, []) :: rest) = (' ' :: k) ++ attrsToString rest := by
  simp [attrsToString]

/-! ### Where attribute values come from: only quoted spans -/

theorem splitAtChar_eq {c : Char} {l v r : List Char}
    (h : splitAtChar c l = some (v, r)) : l = v ++ c :: r := by
  induction l generalizing v r with
  | nil => simp [splitAtChar] at h
  | cons a t ih =>
    simp only [splitAtChar] at h
    split at h
    · rename_i hac
      simp only [Option.some.injEq, Prod.mk.injEq] at h
      obtain ⟨rfl, rfl⟩ := h
      have : a = c := by simpa using hac
      simp [this]
    · simp only [Option.map_eq_some'] at h
      obtain ⟨⟨v1, r1⟩, hp, he⟩ := h
      simp only [Prod.mk.injEq] at he
      obtain ⟨rfl, rfl⟩ := he
      rw [List.cons_append, ← ih hp]

/-- isTail r s: s ends in r.  Used to trace regex matches back to spans of
the original tag string. -/
def isTail (r s : List Char) : Prop := ∃ u, s = u ++ r

theorem isTail_trans {a b c : List Char} (h1 : isTail a b) (h2 : isTail b c) :
    isTail a c := by
  obtain ⟨u1, rfl⟩ := h1
  obtain ⟨u2, rfl⟩ := h2
  exact ⟨u2 ++ u1, by rw [List.append_assoc]⟩

theorem isTail_dropWhile (p : Char → Bool) (l : List Char) :
    isTail (l.dropWhile p) l :=
  ⟨l.takeWhile p, (List.takeWhile_append_dropWhile p l).symm⟩

theorem isTail_cons (x : Char) (l : List Char) : isTail l (x :: l) := ⟨[x], rfl⟩

/-- What one regex match establishes: the remaining suffix really is a
suffix of the input, and any non-empty captured value sits in the input
wrapped in single or double quotes. -/
theorem attrExec_parts {s k v rest : List Char} (h : attrExec s = some ((k, v), rest)) :
    isTail rest s ∧ (v = [] ∨ (∃ u, s = u ++ (squote :: (v ++ squote :: rest))) ∨
      (∃ u, s = u ++ (dquote :: (v ++ dquote :: rest)))) := by
  unfold attrExec at h
  split at h
  · exact absurd h (by simp)
  · rename_i c t hct
    have hs_ct : isTail (c :: t) s :=
      ⟨s.takeWhile (fun x => !(isNameChar x)),
        by rw [← hct]; exact (List.takeWhile_append_dropWhile _ _).symm⟩
    dsimp only at h
    have ht_after : isTail (t.dropWhile isNameChar) s :=
      isTail_trans (isTail_trans (isTail_dropWhile _ t) (isTail_cons c t)) hs_ct
    have hAW : isTail ((t.dropWhile isNameChar).dropWhile isWS) s :=
      isTail_trans (isTail_dropWhile _ _) ht_after
    split at h
    · rename_i rest2 h1
      have hR2 : isTail rest2 s := by
        rw [h1] at hAW
        exact isTail_trans (isTail_cons '=' rest2) hAW
      have hR3 : isTail (rest2.dropWhile isWS) s :=
        isTail_trans (isTail_dropWhile _ _) hR2
      split at h
      · rename_i q rest4 h2
        rw [h2] at hR3
        split at h
        · rename_i hq
          have hqq : q = squote := by simpa using hq
          split at h
          · rename_i p v1 rest5 h3
            simp only [Option.some.injEq, Prod.mk.injEq] at h
            obtain ⟨⟨rfl, rfl⟩, rfl⟩ := h
            have h4 := splitAtChar_eq h3
            obtain ⟨u, hu⟩ := hR3
            subst hqq
            constructor
            · refine ⟨u ++ (squote :: v1 ++ [squote]), ?_⟩
              rw [hu, h4]
              simp
            · refine Or.inr (Or.inl ⟨u, ?_⟩)
              rw [hu, h4]
          · simp only [Option.some.injEq, Prod.mk.injEq] at h
            obtain ⟨⟨rfl, rfl⟩, rfl⟩ := h
            exact ⟨ht_after, Or.inl rfl⟩
        · split at h
          · rename_i hq'
            have hqq : q = dquote := by simpa using hq'
            split at h
            · rename_i p v1 rest5 h3
              simp only [Option.some.injEq, Prod.mk.injEq] at h
              obtain ⟨⟨rfl, rfl⟩, rfl⟩ := h
              have h4 := splitAtChar_eq h3
              obtain ⟨u, hu⟩ := hR3
              subst hqq
              constructor
              · refine ⟨u ++ (dquote :: v1 ++ [dquote]), ?_⟩
                rw [hu, h4]
                simp
              · refine Or.inr (Or.inr ⟨u, ?_⟩)
                rw [hu, h4]
            · simp only [Option.some.injEq, Prod.mk.injEq] at h
              obtain ⟨⟨rfl, rfl⟩, rfl⟩ := h
              exact ⟨ht_after, Or.inl rfl⟩
          · simp only [Option.some.injEq, Prod.mk.injEq] at h
            obtain ⟨⟨rfl, rfl⟩, rfl⟩ := h
            exact ⟨ht_after, Or.inl rfl⟩
      · simp only [Option.some.injEq, Prod.mk.injEq] at h
        obtain ⟨⟨rfl, rfl⟩, rfl⟩ := h
        exact ⟨ht_after, Or.inl rfl⟩
    · simp only [Option.some.injEq, Prod.mk.injEq] at h
      obtain ⟨⟨rfl, rfl⟩, rfl⟩ := h
      exact ⟨ht_after, Or.inl rfl⟩

/-- Any pair recorded by the attribute loop that is not already in the
accumulator has an empty value or a value that occurs quoted in the
input. -/
theorem scanAttrs_mem {s : List Char} {acc : List (List Char × List Char)}
    {k v : List Char} (h : (k, v) ∈ scanAttrs s acc) :
    (k, v) ∈ acc ∨ v = [] ∨ occurs (squote :: (v ++ [squote])) s = true ∨
      occurs (dquote :: (v ++ [dquote])) s = true := by
  induction s, acc using scanAttrs.induct with
  | case1 s acc hex =>
    rw [scanAttrs_none hex] at h
    exact Or.inl h
  | case2 s acc k1 v1 rest hex ih =>
    rw [scanAttrs_some hex] at h
    rcases ih h with hmem | hv | hoc | hoc
    · rcases insertAttr_mem hmem with hm | ⟨rfl, rfl⟩
      · exact Or.inl hm
      · rcases (attrExec_parts hex).2 with hv1 | ⟨u, hu⟩ | ⟨u, hu⟩
        · exact Or.inr (Or.inl hv1)
        · refine Or.inr (Or.inr (Or.inl ?_))
          apply occurs_of_split (u := u) (w := rest) (x := squote :: (v ++ [squote]))
          rw [hu]
          simp
        · refine Or.inr (Or.inr (Or.inr ?_))
          apply occurs_of_split (u := u) (w := rest) (x := dquote :: (v ++ [dquote]))
          rw [hu]
          simp
    · exact Or.inr (Or.inl hv)
    · obtain ⟨u, hu⟩ := (attrExec_parts hex).1
      refine Or.inr (Or.inr (Or.inl ?_))
      rw [hu]
      exact occurs_mono hoc
    · obtain ⟨u, hu⟩ := (attrExec_parts hex).1
      refine Or.inr (Or.inr (Or.inr ?_))
      rw [hu]
      exact occurs_mono hoc

/-- Values recorded by extractAttributes are empty or quoted in the input:
an unquoted right-hand side is never captured as a value. -/
theorem extractAttributes_mem {s k v : List Char} (h : (k, v) ∈ extractAttributes s) :
    v = [] ∨ occurs (squote :: (v ++ [squote])) s = true ∨
      occurs (dquote :: (v ++ [dquote])) s = true := by
  rw [extractAttributes_eq] at h
  rcases scanAttrs_mem h with hm | rest
  · simp at hm
  · exact rest

/-! ### Whitespace normalization (from the round-trip property's wording) -/

/-- Collapse every run of whitespace to a single space. -/
def collapseWS : List Char → List Char
  | [] => []
  | c :: t =>
    if isWS c then ' ' :: (collapseWS t).dropWhile (fun x => x == ' ')
    else c :: collapseWS t

/-- The round-trip normalization: collapse whitespace runs, then trim. -/
def normalize (l : List Char) : List Char := trim (collapseWS l)

/-- A void element serializes as its opening tag alone: no children, no
closing tag. -/
theorem jsonToHtml_void {t : List Char} (attrs : List (List Char × List Char))
    (children : List Node) (h : voidTags.contains t = true) :
    jsonToHtml (.element t attrs children) = ('<' :: (t ++ attrsToString attrs)) ++ ['>'] := by
  rw [jsonToHtml]
  try dsimp only
  rw [if_pos h]

/-! ### The claims -/

/-- C2: for every finite input, htmlToJson terminates: a jump or element
step always advances the cursor strictly, and therefore running the loop
with fuel bounded by the remaining input length already computes the full
parse (no input, malformed included, can make the loop run longer). -/
theorem C2_progress_guarantee :
    (∀ (html : List Char) (index : Nat) (ns : List Node) (next : Nat),
      scanStep html index = Step.jump ns next → index < next) ∧
    (∀ (html : List Char) (index : Nat) (pre : List Node) (tagName : List Char)
      (attributes : List (List Char × List Char)) (inner : List Char) (next : Nat),
      scanStep html index = Step.elem pre tagName attributes inner next →
        index < next ∧ inner.length < html.length) ∧
    (∀ (html : List Char) (index fuel : Nat), html.length - index < fuel →
      scanF fuel html index = some (scan html index)) := by
  refine ⟨?_, ?_, ?_⟩
  · intro html index ns next h
    exact (scanStep_jump h).1
  · intro html index pre tagName attributes inner next h
    obtain ⟨h1, h2, -, -⟩ := scanStep_elem h
    exact ⟨h1, by omega⟩
  · intro html index fuel h
    exact scanF_eq_scan html index fuel h

/-- C2 witness: the fuel-bounded run at a concrete input. -/
theorem C2_progress_guarantee_witness :
    "<a>x".data.length - 0 < 6 ∧ scanF 6 "<a>x".data 0 = some (scan "<a>x".data 0) :=
  ⟨by decide, C2_progress_guarantee.2.2 "<a>x".data 0 6 (by decide)⟩

/-- C3 counterexample: the closing-tag search is case-SENSITIVE on the
lowercased literal, so parsing <DIV>x</DIV> does NOT pair the closing tag:
it yields a childless element plus stray text siblings, not one element
with a single text child as the claim states. -/
theorem C3_counterexample :
    htmlToJson "<DIV>x</DIV>".data =
      [Node.element "div".data [] [], Node.text "x".data, Node.text "/DIV>".data] ∧
    htmlToJson "<DIV>x</DIV>".data ≠ [Node.element "div".data [] [Node.text "x".data]] := by
  have he : htmlToJson "<DIV>x</DIV>".data =
      [Node.element "div".data [] [], Node.text "x".data, Node.text "/DIV>".data] :=
    htmlToJson_eval (by rfl)
  refine ⟨he, ?_⟩
  rw [he]
  intro hC
  exact absurd (congrArg List.length hC) (by decide)

/-- C3 amended: the search for the matching closing tag is the first
occurrence of the literal sequence formed from the lowercased tag name,
case-sensitively (indexOfFrom returns the first occurrence at or after the
start); an already-lowercase document pairs correctly. -/
theorem C3_closing_tag_search :
    (∀ (l s : List Char) (start j : Nat), indexOfFrom l s start = some j →
      begins (l.drop j) s = true ∧
        ∀ k, min start l.length ≤ k → k < j → begins (l.drop k) s = false) ∧
    htmlToJson "<div>x</div>".data = [Node.element "div".data [] [Node.text "x".data]] := by
  constructor
  · intro l s start j h
    exact ⟨(indexOfFrom_some h).2.2, indexOfFrom_first h⟩
  · exact htmlToJson_eval (by rfl)

/-- C3 witness: the first </a> after the opening tag is the one found. -/
theorem C3_closing_tag_search_witness :
    begins ("<a></a></a>".data.drop 3) "</a>".data = true ∧
      ∀ k, min 3 "<a></a></a>".data.length ≤ k → k < 3 →
        begins ("<a></a></a>".data.drop k) "</a>".data = false :=
  C3_closing_tag_search.1 "<a></a></a>".data "</a>".data 3 3 (by rfl)

/-- C4 counterexample: htmlToJson "</div>" is not the empty sequence: the <
is skipped, and the remaining characters "/div>" are then scanned as an
ordinary text node. -/
theorem C4_counterexample :
    htmlToJson "</div>".data = [Node.text "/div>".data] ∧
      htmlToJson "</div>".data ≠ [] := by
  have he : htmlToJson "</div>".data = [Node.text "/div>".data] :=
    htmlToJson_eval (by rfl)
  refine ⟨he, ?_⟩
  rw [he]
  simp

/-- C4 amended: on a stray closing tag the scanner skips the < (cursor
advances one character) and emits no node for the closing tag itself (only
any pending text); the skipped characters are rescanned, so
htmlToJson "</div>" is the text node "/div>", not the empty sequence. -/
theorem C4_stray_closing_tag :
    (∀ (html : List Char) (index i : Nat), index < html.length →
      indexOfFrom html ['<'] index = some i → i + 1 < html.length →
      getC html (i + 1) = '/' →
      scanStep html index =
        Step.jump (if (trim (jsSubstring html index i)).length > 0
          then [Node.text (trim (jsSubstring html index i))] else []) (i + 1)) ∧
    htmlToJson "</div>".data = [Node.text "/div>".data] := by
  constructor
  · intro html index i h1 h2 h3 h4
    exact scanStep_closing h1 h2 h3 h4
  · exact htmlToJson_eval (by rfl)

/-- C4 witness: the stray-closing-tag step at the concrete input. -/
theorem C4_stray_closing_tag_witness :
    scanStep "</div>".data 0 =
      Step.jump (if (trim (jsSubstring "</div>".data 0 0)).length > 0
        then [Node.text (trim (jsSubstring "</div>".data 0 0))] else []) 1 :=
  C4_stray_closing_tag.1 "</div>".data 0 0 (by decide) (by rfl) (by decide) (by rfl)

/-- C5 counterexample: parsing <a><a></a></a> does pair the outer a with
the first </a>, but the leftover is a TEXT node "/a>", not a stray element
<a></a>: every node after the first is a text node. -/
theorem C5_counterexample :
    htmlToJson "<a><a></a></a>".data =
      [Node.element "a".data [] [Node.element "a".data [] []], Node.text "/a>".data] ∧
    ((htmlToJson "<a><a></a></a>".data).drop 1).all isTextNode = true := by
  have he : htmlToJson "<a><a></a></a>".data =
      [Node.element "a".data [] [Node.element "a".data [] []], Node.text "/a>".data] :=
    htmlToJson_eval (by rfl)
  refine ⟨he, ?_⟩
  rw [he]
  rfl

/-- C5 amended: the outer element a pairs with the FIRST </a>, so its inner
span is just "<a>", parsed into one childless element a; the second closing
tag is skipped at its < and the remaining characters become the stray text
sibling "/a>". -/
theorem C5_nesting_failure :
    htmlToJson "<a><a></a></a>".data =
      [Node.element "a".data [] [Node.element "a".data [] []], Node.text "/a>".data] :=
  htmlToJson_eval (by rfl)

/-- C6: a script element with a non-empty (after trim) inner span gets
exactly one Text child holding the inner span verbatim (not recursively
parsed); concretely on the specification's example. -/
theorem C6_script_raw_text :
    (∀ (html : List Char) (index i tagEnd endTagIndex : Nat),
      index < html.length →
      indexOfFrom html ['<'] index = some i →
      i + 1 < html.length →
      jsSubstring html i (i + 4) ≠ "<!--".data →
      getC html (i + 1) ≠ '/' →
      indexOfFrom html ['>'] i = some tagEnd →
      ((trim (jsSubstring html (i + 1) tagEnd)).takeWhile isNameChar).map Char.toLower =
        "script".data →
      endsWithSlash (trim (jsSubstring html (i + 1) tagEnd)) = false →
      indexOfFrom html (('<' :: '/' :: "script".data) ++ ['>']) (tagEnd + 1) =
        some endTagIndex →
      (trim (jsSubstring html (tagEnd + 1) endTagIndex)).length > 0 →
      scanStep html index =
        Step.jump ((if (trim (jsSubstring html index i)).length > 0
            then [Node.text (trim (jsSubstring html index i))] else []) ++
          [Node.element "script".data
            (extractAttributes (trim ((trim (jsSubstring html (i + 1) tagEnd)).drop 6)))
            [Node.text (jsSubstring html (tagEnd + 1) endTagIndex)]])
          (endTagIndex + 9)) ∧
    htmlToJson "<script>if (a < b) \x7b x(); \x7d</script>".data =
      [Node.element "script".data []
        [Node.text "if (a < b) \x7b x(); \x7d".data]] := by
  constructor
  · intro html index i tagEnd endTagIndex h1 h2 h3 h4 h5 h6 h7 h8 h9 h10
    exact scanStep_script h1 h2 h3 h4 h5 h6 h7 h8 h9 h10
  · exact htmlToJson_eval (by rfl)

/-- C6 witness: the script step at the specification's concrete input. -/
theorem C6_script_raw_text_witness :
    scanStep "<script>if (a < b) \x7b x(); \x7d</script>".data 0 =
      Step.jump ((if (trim (jsSubstring "<script>if (a < b) \x7b x(); \x7d</script>".data 0 0)).length > 0
          then [Node.text (trim (jsSubstring "<script>if (a < b) \x7b x(); \x7d</script>".data 0 0))]
          else []) ++
        [Node.element "script".data
          (extractAttributes (trim ((trim (jsSubstring "<script>if (a < b) \x7b x(); \x7d</script>".data 1 7)).drop 6)))
          [Node.text (jsSubstring "<script>if (a < b) \x7b x(); \x7d</script>".data 8 27)]])
        36 :=
  C6_script_raw_text.1 "<script>if (a < b) \x7b x(); \x7d</script>".data 0 0 7 27
    (by decide) (by rfl) (by decide) (by decide) (by decide) (by rfl) (by rfl)
    (by rfl) (by rfl) (by decide)

/-- C7: every void-list element has empty children after parsing (an
invariant of every parse, whatever follows the tag), the serializer never
emits children or a closing tag for a void tag, and the concrete void-input
parse. -/
theorem C7_void_elements :
    (∀ (html : List Char) (index : Nat), voidOKList (scan html index) = true) ∧
    (∀ (t : List Char) (attrs : List (List Char × List Char)) (children : List Node),
      voidTags.contains t = true →
      jsonToHtml (.element t attrs children) = ('<' :: (t ++ attrsToString attrs)) ++ ['>']) ∧
    htmlToJson "<input type=\"text\" required>x</input>".data =
      [Node.element "input".data [("type".data, "text".data), ("required".data, [])] [],
        Node.text "x".data, Node.text "/input>".data] := by
  refine ⟨scan_voidOK, ?_, ?_⟩
  · intro t attrs children h
    exact jsonToHtml_void attrs children h
  · exact htmlToJson_eval (by rfl)

/-- C7 witness: serializing a void element with children emits no closing
tag, at a concrete input. -/
theorem C7_void_elements_witness :
    voidTags.contains "br".data = true ∧
      jsonToHtml (.element "br".data [] [Node.text "x".data]) =
        ('<' :: ("br".data ++ attrsToString [])) ++ ['>'] :=
  ⟨by decide, C7_void_elements.2.1 "br".data [] [Node.text "x".data] (by decide)⟩

/-- C8: matches are recorded left to right and a later occurrence of a key
overwrites the earlier one (the mapping's keys stay unique), concretely on
the specification's example. -/
theorem C8_last_write_wins :
    (∀ (m : List (List Char × List Char)) (k v : List Char),
      getAttr (insertAttr m k v) k = some v) ∧
    extractAttributes "id=\"a\" id=\"b\"".data = [("id".data, "b".data)] :=
  ⟨insertAttr_getAttr, by rfl⟩

/-- C9: an attribute name with no =value portion maps to the empty string,
and an empty-valued attribute serializes as a space and the bare key. -/
theorem C9_boolean_attribute :
    (∀ s : List Char, s ≠ [] → (∀ c ∈ s, isNameChar c = true) →
      extractAttributes s = [(s, [])]) ∧
    (∀ (k : List Char) (rest : List (List Char × List Char)),
      attrsToString ((k, []) :: rest) = (' ' :: k) ++ attrsToString rest) ∧
    extractAttributes "disabled".data = [("disabled".data, [])] ∧
    jsonToHtml (.element "input".data [("disabled".data, [])] []) = "<input disabled>".data := by
  refine ⟨?_, attrsToString_bool, by rfl, by rfl⟩
  intro s h1 h2
  exact extractAttributes_name_only h1 h2

/-- C9 witness: the bare-identifier lemma applied at the concrete input. -/
theorem C9_boolean_attribute_witness :
    extractAttributes "required".data = [("required".data, [])] :=
  C9_boolean_attribute.1 "required".data (by decide) (by decide)

/-- C10: extractAttributes never captures an unquoted value: every recorded
value is empty or occurs single- or double-quoted in the input; and
width=100 yields width and 100 as separate empty-valued keys. -/
theorem C10_no_unquoted_values :
    (∀ (s k v : List Char), (k, v) ∈ extractAttributes s → v = [] ∨
      occurs (squote :: (v ++ [squote])) s = true ∨
      occurs (dquote :: (v ++ [dquote])) s = true) ∧
    extractAttributes "width=100".data = [("width".data, []), ("100".data, [])] :=
  ⟨fun _ _ _ h => extractAttributes_mem h, by rfl⟩

/-- C10 witness: a double-quoted value is traced back to its quoted span. -/
theorem C10_no_unquoted_values_witness :
    ("a".data, "x".data) ∈ extractAttributes "a=\"x\"".data ∧
      ("x".data = [] ∨
        occurs (squote :: ("x".data ++ [squote])) "a=\"x\"".data = true ∨
        occurs (dquote :: ("x".data ++ [dquote])) "a=\"x\"".data = true) :=
  ⟨by decide, C10_no_unquoted_values.1 "a=\"x\"".data "a".data "x".data (by decide)⟩

/-! ### The round-trip class: documents rendered from well-formed trees -/

/-- Keys of an attribute list are pairwise distinct. -/
def distinctKeysB : List (List Char) → Bool
  | [] => true
  | k :: t => !(t.contains k) && distinctKeysB t

/-- One well-formed attribute: a non-empty name of name characters, and a
value free of double quotes and of angle brackets. -/
def wfAttr (p : List Char × List Char) : Bool :=
  !(p.1 == []) && p.1.all isNameChar &&
    p.2.all (fun c => !(c == dquote) && !(c == '<') && !(c == '>'))

def wfAttrs (attrs : List (List Char × List Char)) : Bool :=
  attrs.all wfAttr && distinctKeysB (attrs.map Prod.fst)

mutual
/-- All element tag names occurring in a node. -/
def tagsOf : Node → List (List Char)
  | .text _ => []
  | .comment _ => []
  | .element tag _ children => tag :: tagsOfList children

/-- All element tag names occurring in a node sequence. -/
def tagsOfList : List Node → List (List Char)
  | [] => []
  | n :: rest => tagsOf n ++ tagsOfList rest
end

mutual
/-- Node size (number of nodes in the tree), the induction measure. -/
def nsize : Node → Nat
  | .text _ => 1
  | .comment _ => 1
  | .element _ _ children => 1 + nsizeList children

def nsizeList : List Node → Nat
  | [] => 0
  | n :: rest => nsize n + nsizeList rest
end

mutual
/-- A well-formed node of the round-trip class: text runs are non-empty,
already trimmed and free of markup-opening characters; elements have
non-empty, lowercase name-character tags, are not raw-text (script)
elements, have well-formed attributes, have empty children when void, and
their tag does not recur among their descendants (the unique-tag,
non-overlapping condition that makes the first-occurrence closing-tag
search correct). -/
def wfNode : Node → Bool
  | .text s => !(s == []) && (trim s == s) && !(s.contains '<')
  | .comment _ => false
  | .element tag attrs children =>
    !(tag == []) && tag.all isNameChar && (tag.map Char.toLower == tag) &&
      !(tag == "script".data) && wfAttrs attrs &&
      !((tagsOfList children).contains tag) &&
      (if voidTags.contains tag then children.isEmpty else wfSeq children)

/-- A well-formed node sequence: each node well-formed and no two adjacent
text nodes (which would merge on reparsing). -/
def wfSeq : List Node → Bool
  | [] => true
  | [n] => wfNode n
  | a :: b :: rest => wfNode a && !(isTextNode a && isTextNode b) && wfSeq (b :: rest)
end

/-! ### String infrastructure for the round-trip proof -/

theorem isNameChar_not_ws {c : Char} (h : isNameChar c = true) : isWS c = false := by
  cases hw : isWS c with
  | false => rfl
  | true =>
    exfalso
    simp only [isWS, Bool.or_eq_true, beq_iff_eq] at hw
    rcases hw with ((((rfl | rfl) | rfl) | rfl) | rfl) | rfl <;> exact absurd h (by decide)

theorem isNameChar_ne {c : Char} (h : isNameChar c = true) :
    c ≠ '<' ∧ c ≠ '>' ∧ c ≠ '/' ∧ c ≠ '=' ∧ c ≠ '!' ∧ c ≠ dquote := by
  refine ⟨?_, ?_, ?_, ?_, ?_, ?_⟩ <;> (intro heq; subst heq; exact absurd h (by decide))

theorem findSub_cons_of_begins {l s : List Char} (h : begins l s = true) :
    findSub l s = some 0 := by
  cases l with
  | nil =>
    cases s with
    | nil => rfl
    | cons b t => simp [begins] at h
  | cons a t => simp [findSub, h]

theorem findSub_single_none {c : Char} {u : List Char} (h : c ∉ u) :
    findSub u [c] = none := by
  induction u with
  | nil => rfl
  | cons a t ih =>
    have ha : a ≠ c := by
      intro heq
      exact h (heq ▸ List.mem_cons_self a t)
    have hb : begins (a :: t) [c] = false := by
      simp [begins, ha]
    simp only [findSub, hb]
    simp only [Bool.false_eq_true, if_false]
    rw [ih (fun hm => h (List.mem_cons_of_mem a hm))]
    rfl

theorem findSub_single_append {c : Char} {u : List Char} (h : c ∉ u) (w : List Char) :
    findSub (u ++ c :: w) [c] = some u.length := by
  induction u with
  | nil =>
    simp only [List.nil_append]
    exact findSub_cons_of_begins (by simp [begins])
  | cons a t ih =>
    have ha : a ≠ c := by
      intro heq
      exact h (heq ▸ List.mem_cons_self a t)
    have hb : begins (a :: (t ++ c :: w)) [c] = false := by
      simp [begins, ha]
    simp only [List.cons_append, findSub, List.append_eq]
    rw [hb]
    simp only [Bool.false_eq_true, if_false]
    rw [ih (fun hm => h (List.mem_cons_of_mem a hm))]
    simp [List.length_cons]

/-- indexOfFrom at an in-range start is findSub on the suffix, shifted. -/
theorem indexOfFrom_drop {l s : List Char} {start : Nat} (h : start ≤ l.length) :
    indexOfFrom l s start = (findSub (l.drop start) s).map (fun n => n + start) := by
  unfold indexOfFrom
  have : min start l.length = start := by omega
  rw [this]

/-- noHit u s: no occurrence of s starts inside u, whatever follows u. -/
def noHit (u s : List Char) : Prop :=
  ∀ (v : List Char) (j : Nat), j < u.length → begins ((u ++ v).drop j) s = false

theorem noHit_nil (s : List Char) : noHit [] s := by
  intro v j hj
  simp at hj

theorem noHit_append {u1 u2 s : List Char} (h1 : noHit u1 s) (h2 : noHit u2 s) :
    noHit (u1 ++ u2) s := by
  intro v j hj
  rcases Nat.lt_or_ge j u1.length with hlt | hge
  · rw [List.append_assoc]
    exact h1 (u2 ++ v) j hlt
  · rw [List.append_assoc]
    have hj2 : j - u1.length < u2.length := by
      simp only [List.length_append] at hj
      omega
    have hdd : (u1 ++ (u2 ++ v)).drop j = (u2 ++ v).drop (j - u1.length) := by
      rw [show j = u1.length + (j - u1.length) from by omega, ← List.drop_drop,
        List.drop_left]
      congr 1
      omega
    rw [hdd]
    exact h2 v (j - u1.length) hj2

theorem getC_mem {u : List Char} {j : Nat} (h : j < u.length) : getC u j ∈ u := by
  unfold getC
  rw [List.getD_eq_getElem?_getD, List.getElem?_eq_getElem h]
  exact List.getElem_mem h

theorem getC_append_left {u v : List Char} {j : Nat} (h : j < u.length) :
    getC (u ++ v) j = getC u j := by
  unfold getC
  rw [List.getD_eq_getElem?_getD, List.getD_eq_getElem?_getD,
    List.getElem?_append_left h]

/-- If a match of c :: s starts at position j of u ++ v inside u, then
u has c at position j. -/
theorem hit_head {u v : List Char} {j : Nat} {c : Char} {s : List Char}
    (hj : j < u.length) (hb : begins ((u ++ v).drop j) (c :: s) = true) :
    getC u j = c := by
  have h0 : getC ((u ++ v).drop j) 0 = c := begins_head hb
  have h1 : getC (u ++ v) j = c := by
    have := getC_drop (l := u ++ v) (i := j) (k := 0)
      (by simp only [List.length_append]; omega)
    rw [Nat.add_zero] at this
    rw [this]
    exact h0
  rwa [getC_append_left hj] at h1

/-- A string without < admits no match of a pattern starting with <. -/
theorem noHit_no_lt {u : List Char} (h : '<' ∉ u) (s : List Char) :
    noHit u ('<' :: s) := by
  intro v j hj
  cases hb : begins ((u ++ v).drop j) ('<' :: s) with
  | false => rfl
  | true => exact absurd (hit_head hj hb ▸ getC_mem hj) h

theorem noHit_tail {a : Char} {u s : List Char} (h : noHit (a :: u) s) : noHit u s := by
  intro v j hj
  have := h v (j + 1) (by simp only [List.length_cons]; omega)
  simpa using this

/-- No early match means findSub skips the whole prefix. -/
theorem findSub_of_noHit {u s : List Char} (h : noHit u s) (v : List Char) :
    findSub (u ++ v) s = (findSub v s).map (fun n => n + u.length) := by
  induction u with
  | nil =>
    simp only [List.nil_append, List.length_nil]
    cases findSub v s <;> simp
  | cons a t ih =>
    have hb : begins ((a :: t) ++ v) s = false := by
      have := h v 0 (by simp)
      simpa using this
    cases s with
    | nil => simp [begins] at hb
    | cons c s' =>
      have hb' : begins (a :: (t ++ v)) (c :: s') = false := by
        simpa using hb
      simp only [List.cons_append, findSub, List.append_eq]
      rw [hb']
      simp only [Bool.false_eq_true, if_false]
      rw [ih (noHit_tail h)]
      cases hf : findSub v (c :: s') with
      | none => rfl
      | some n =>
        simp only [Option.map_some', Option.map_map, List.length_cons]
        first
        | rfl
        | (congr 1
           omega)

/-- Distinct name-character tags: a closing tag of one never begins where a
closing tag of the other is rendered. -/
theorem closeMismatch : ∀ (tag tag' w : List Char), tag ≠ tag' →
    (∀ c ∈ tag, isNameChar c = true) → (∀ c ∈ tag', isNameChar c = true) →
    begins (tag' ++ '>' :: w) (tag ++ ['>']) = false := by
  intro tag
  induction tag with
  | nil =>
    intro tag' w hne hn hn'
    cases tag' with
    | nil => exact absurd rfl hne
    | cons b t' =>
      have hb : b ≠ '>' := ((isNameChar_ne (hn' b (by simp))).2.1)
      simp [begins, hb]
  | cons a tg ih =>
    intro tag' w hne hn hn'
    cases tag' with
    | nil =>
      have ha : a ≠ '>' := ((isNameChar_ne (hn a (by simp))).2.1)
      simp [begins, Ne.symm ha]
    | cons b tg' =>
      by_cases hab : b = a
      · subst hab
        have htg : tg ≠ tg' := by
          intro heq
          exact hne (by rw [heq])
        have := ih tg' w htg (fun c hc => hn c (by simp [hc]))
          (fun c hc => hn' c (by simp [hc]))
        simpa [begins] using this
      · simp [begins, hab]

/-- No closing tag of tag starts inside the rendered closing tag of a
different name-character tag'. -/
theorem noHit_close {tag tag' : List Char} (hne : tag ≠ tag')
    (hn : ∀ c ∈ tag, isNameChar c = true) (hn' : ∀ c ∈ tag', isNameChar c = true) :
    noHit (('<' :: '/' :: tag') ++ ['>']) ('<' :: '/' :: (tag ++ ['>'])) := by
  intro v j hj
  cases j with
  | zero =>
    simp only [List.drop_zero]
    have : (('<' :: '/' :: tag') ++ ['>']) ++ v = '<' :: '/' :: (tag' ++ '>' :: v) := by
      simp
    rw [this]
    simp only [begins, beq_self_eq_true, Bool.true_and]
    exact closeMismatch tag tag' v hne hn hn'
  | succ j' =>
    have hnl : '<' ∉ ('/' :: tag') ++ ['>'] := by
      intro hm
      simp only [List.cons_append, List.mem_cons, List.mem_append,
        List.mem_singleton] at hm
      rcases hm with h1 | h1 | h1
      · exact absurd h1.symm (by decide)
      · exact absurd rfl ((isNameChar_ne (hn' _ h1)).1).symm
      · exact absurd h1 (by decide)
    have hlen : j' < (('/' :: tag') ++ ['>']).length := by
      simp only [List.length_append, List.length_cons] at hj ⊢
      omega
    have := noHit_no_lt hnl (('/' :: (tag ++ ['>']))) v j' hlen
    have hshape : (('<' :: '/' :: tag') ++ ['>']) ++ v =
        '<' :: ((('/' :: tag') ++ ['>']) ++ v) := by simp
    rw [hshape, List.drop_succ_cons]
    exact this

/-! ### trim, takeWhile and dropWhile facts -/

theorem trim_eq_self {l : List Char}
    (h1 : ∀ c, l.head? = some c → isWS c = false)
    (h2 : ∀ c, l.getLast? = some c → isWS c = false) : trim l = l := by
  unfold trim
  have hfront : l.dropWhile isWS = l := by
    cases l with
    | nil => rfl
    | cons a t => exact List.dropWhile_cons_of_neg (by simp [h1 a rfl])
  rw [hfront]
  have hback : l.reverse.dropWhile isWS = l.reverse := by
    cases hr : l.reverse with
    | nil => rfl
    | cons a t =>
      have ha : l.getLast? = some a := by
        rw [List.getLast?_eq_head?_reverse, hr]
        rfl
      exact List.dropWhile_cons_of_neg (by simp [h2 a ha])
  rw [hback, List.reverse_reverse]

theorem trim_no_trailing {l : List Char}
    (h2 : ∀ c, l.getLast? = some c → isWS c = false) : trim l = l.dropWhile isWS := by
  unfold trim
  cases hd : l.dropWhile isWS with
  | nil => rfl
  | cons a t =>
    have hlast : (l.dropWhile isWS).getLast? = l.getLast? := by
      conv_rhs => rw [← List.takeWhile_append_dropWhile isWS l]
      rw [List.getLast?_append]
      rw [hd]
      cases hgl : (a :: t).getLast? with
      | none => simp at hgl
      | some c => rfl
    have hback : (l.dropWhile isWS).reverse.dropWhile isWS = (l.dropWhile isWS).reverse := by
      cases hr : (l.dropWhile isWS).reverse with
      | nil => rfl
      | cons b u =>
        have hb : (l.dropWhile isWS).getLast? = some b := by
          rw [List.getLast?_eq_head?_reverse, hr]
          rfl
        rw [hlast] at hb
        exact List.dropWhile_cons_of_neg (by simp [h2 b hb])
    rw [← hd, hback, List.reverse_reverse]

theorem takeWhile_append_all {p : Char → Bool} {u : List Char} (v : List Char)
    (h : ∀ c ∈ u, p c = true) : (u ++ v).takeWhile p = u ++ v.takeWhile p := by
  induction u with
  | nil => rfl
  | cons a t ih =>
    rw [List.cons_append, List.takeWhile_cons_of_pos (h a (by simp))]
    rw [ih (fun c hc => h c (by simp [hc]))]
    rfl

theorem dropWhile_append_all {p : Char → Bool} {u : List Char} (v : List Char)
    (h : ∀ c ∈ u, p c = true) : (u ++ v).dropWhile p = v.dropWhile p := by
  induction u with
  | nil => rfl
  | cons a t ih =>
    rw [List.cons_append, List.dropWhile_cons_of_pos (h a (by simp))]
    exact ih (fun c hc => h c (by simp [hc]))

theorem dropWhile_dropWhile {p q : Char → Bool} {l : List Char}
    (h : ∀ c, p c = true → q c = true) :
    (l.dropWhile p).dropWhile q = l.dropWhile q := by
  induction l with
  | nil => rfl
  | cons a t ih =>
    cases hp : p a with
    | true =>
      rw [List.dropWhile_cons_of_pos hp, ih, List.dropWhile_cons_of_pos (h a hp)]
    | false => rw [List.dropWhile_cons_of_neg (by simp [hp])]

theorem splitAtChar_append {c : Char} {v : List Char} (r : List Char)
    (hv : ∀ a ∈ v, a ≠ c) : splitAtChar c (v ++ c :: r) = some (v, r) := by
  induction v with
  | nil =>
    simp only [List.nil_append, splitAtChar]
    rw [if_pos (by simp)]
  | cons a t ih =>
    have ha : (a == c) = false := by
      simp [hv a (by simp)]
    simp only [List.cons_append, splitAtChar, List.append_eq]
    rw [if_neg (by simp [ha])]
    rw [ih (fun x hx => hv x (by simp [hx]))]
    rfl

/-! ### The attribute extractor inverts the attribute serializer -/

theorem attrExec_congr {s1 s2 : List Char}
    (h : s1.dropWhile (fun c => !(isNameChar c)) = s2.dropWhile (fun c => !(isNameChar c))) :
    attrExec s1 = attrExec s2 := by
  unfold attrExec
  rw [h]

/-- One exec over a serialized key="value" attribute (nonempty value). -/
theorem attrExec_kv {pre k v w : List Char}
    (hpre : ∀ c ∈ pre, isNameChar c = false)
    (hk : k ≠ []) (hkn : ∀ c ∈ k, isNameChar c = true)
    (hvd : ∀ c ∈ v, c ≠ dquote) :
    attrExec (pre ++ (k ++ ('=' :: dquote :: (v ++ dquote :: w)))) = some ((k, v), w) := by
  obtain ⟨k0, k', rfl⟩ : ∃ k0 k', k = k0 :: k' := by
    cases k with
    | nil => exact absurd rfl hk
    | cons a b => exact ⟨a, b, rfl⟩
  have hk0 : isNameChar k0 = true := hkn k0 (by simp)
  have hdw : (pre ++ ((k0 :: k') ++ ('=' :: dquote :: (v ++ dquote :: w)))).dropWhile
      (fun c => !(isNameChar c)) = (k0 :: k') ++ ('=' :: dquote :: (v ++ dquote :: w)) := by
    rw [dropWhile_append_all _ (fun c hc => by simp [hpre c hc])]
    exact List.dropWhile_cons_of_neg (by simp [hk0])
  unfold attrExec
  rw [hdw]
  simp only [List.cons_append]
  have htw : (k' ++ ('=' :: dquote :: (v ++ dquote :: w))).takeWhile isNameChar = k' := by
    rw [takeWhile_append_all _ (fun c hc => hkn c (by simp [hc]))]
    rw [List.takeWhile_cons_of_neg (by decide)]
    simp
  have hdw2 : (k' ++ ('=' :: dquote :: (v ++ dquote :: w))).dropWhile isNameChar =
      '=' :: dquote :: (v ++ dquote :: w) := by
    rw [dropWhile_append_all _ (fun c hc => hkn c (by simp [hc]))]
    exact List.dropWhile_cons_of_neg (by decide)
  rw [htw, hdw2]
  have hws : ('=' :: dquote :: (v ++ dquote :: w)).dropWhile isWS =
      '=' :: dquote :: (v ++ dquote :: w) :=
    List.dropWhile_cons_of_neg (by decide)
  rw [hws]
  split
  · rename_i rest2 heq
    injection heq with h1 h2
    subst h2
    have hws2 : (dquote :: (v ++ dquote :: w)).dropWhile isWS =
        dquote :: (v ++ dquote :: w) :=
      List.dropWhile_cons_of_neg (by decide)
    rw [hws2]
    split
    · rename_i q rest4 heq2
      injection heq2 with h3 h4
      subst h3 h4
      rw [if_neg (by decide), if_pos (by decide)]
      rw [splitAtChar_append w hvd]
    · rename_i heq2
      exact absurd heq2 (by simp)
  · rename_i heq
    exact absurd rfl (heq (dquote :: (v ++ dquote :: w)))

/-- One exec over a serialized valueless attribute. -/
theorem attrExec_kOnly {pre k w : List Char}
    (hpre : ∀ c ∈ pre, isNameChar c = false)
    (hk : k ≠ []) (hkn : ∀ c ∈ k, isNameChar c = true)
    (hw : w = [] ∨ ∃ c w', w = ' ' :: c :: w' ∧ isNameChar c = true) :
    attrExec (pre ++ (k ++ w)) = some ((k, []), w) := by
  obtain ⟨k0, k', rfl⟩ : ∃ k0 k', k = k0 :: k' := by
    cases k with
    | nil => exact absurd rfl hk
    | cons a b => exact ⟨a, b, rfl⟩
  have hk0 : isNameChar k0 = true := hkn k0 (by simp)
  have hwname : ∀ c, w.head? = some c → isNameChar c = false := by
    intro c hc
    rcases hw with rfl | ⟨c1, w', rfl, hc1⟩
    · simp at hc
    · simp only [List.head?_cons, Option.some.injEq] at hc
      subst hc
      decide
  have hdw : (pre ++ ((k0 :: k') ++ w)).dropWhile (fun c => !(isNameChar c)) =
      (k0 :: k') ++ w := by
    rw [dropWhile_append_all _ (fun c hc => by simp [hpre c hc])]
    exact List.dropWhile_cons_of_neg (by simp [hk0])
  unfold attrExec
  rw [hdw]
  simp only [List.cons_append]
  have htw : (k' ++ w).takeWhile isNameChar = k' := by
    rw [takeWhile_append_all _ (fun c hc => hkn c (by simp [hc]))]
    cases hwc : w with
    | nil => simp
    | cons c w1 =>
      rw [List.takeWhile_cons_of_neg (by simp [hwname c (by rw [hwc]; rfl)])]
      simp
  have hdw2 : (k' ++ w).dropWhile isNameChar = w := by
    rw [dropWhile_append_all _ (fun c hc => hkn c (by simp [hc]))]
    cases hwc : w with
    | nil => rfl
    | cons c w1 =>
      exact List.dropWhile_cons_of_neg (by simp [hwname c (by rw [hwc]; rfl)])
  rw [htw, hdw2]
  rcases hw with rfl | ⟨c1, w', rfl, hc1⟩
  · rfl
  · have hdws : ((' ' :: c1 :: w').dropWhile isWS) = c1 :: w' := by
      rw [List.dropWhile_cons_of_pos (by decide)]
      exact List.dropWhile_cons_of_neg (by simp [isNameChar_not_ws hc1])
    rw [hdws]
    have hc1e : c1 ≠ '=' := (isNameChar_ne hc1).2.2.2.1
    split
    · rename_i rest2 heq
      injection heq with h1 h2
      exact absurd h1 hc1e
    · rfl

theorem insertAttr_new {m : List (List Char × List Char)} {k v : List Char}
    (h : m.any (fun p => p.1 == k) = false) : insertAttr m k v = m ++ [(k, v)] := by
  unfold insertAttr
  rw [if_neg (by simp [h])]

theorem wfAttr_parts {k v : List Char} (h : wfAttr (k, v) = true) :
    k ≠ [] ∧ (∀ c ∈ k, isNameChar c = true) ∧
      (∀ c ∈ v, c ≠ dquote ∧ c ≠ '<' ∧ c ≠ '>') := by
  simp only [wfAttr, Bool.and_eq_true, Bool.not_eq_true', beq_eq_false_iff_ne,
    List.all_eq_true] at h
  obtain ⟨⟨h1, h2⟩, h3⟩ := h
  refine ⟨h1, h2, ?_⟩
  intro c hc
  have := h3 c hc
  simp only [Bool.and_eq_true, Bool.not_eq_true', beq_eq_false_iff_ne] at this
  exact ⟨this.1.1, this.1.2, this.2⟩

theorem getLast_mem {l : List Char} {a : Char} (h : l.getLast? = some a) : a ∈ l := by
  induction l with
  | nil => cases h
  | cons x t ih =>
    cases t with
    | nil =>
      rw [List.getLast?_singleton] at h
      injection h with h
      simp [h]
    | cons y u =>
      rw [List.getLast?_cons_cons] at h
      simp [ih h]

theorem attrsToString_last {attrs : List (List Char × List Char)}
    (h : ∀ p ∈ attrs, wfAttr p = true) :
    ∀ c, (attrsToString attrs).getLast? = some c → isNameChar c = true ∨ c = dquote := by
  induction attrs with
  | nil => intro c hc; simp [attrsToString] at hc
  | cons p rest ih =>
    obtain ⟨k, v⟩ := p
    intro c hc
    obtain ⟨hk, hkn, -⟩ := wfAttr_parts (h (k, v) (by simp))
    simp only [attrsToString] at hc
    rw [List.getLast?_append] at hc
    cases hrest : (attrsToString rest).getLast? with
    | some c2 =>
      rw [hrest] at hc
      simp only [Option.or_some] at hc
      injection hc with hce
      rw [← hce]
      exact ih (fun p hp => h p (by simp [hp])) c2 hrest
    | none =>
      rw [hrest] at hc
      simp only [Option.none_or] at hc
      split at hc
      · rename_i hv
        have : (' ' :: k).getLast? = k.getLast? := by
          cases hk2 : k with
          | nil => exact absurd hk2 hk
          | cons a b => rfl
        rw [this] at hc
        exact Or.inl (hkn c (getLast_mem hc))
      · rw [List.getLast?_append] at hc
        simp only [List.getLast?_singleton, Option.or_some] at hc
        injection hc with hce
        exact Or.inr hce.symm

theorem attrsToString_no_angle {attrs : List (List Char × List Char)}
    (h : ∀ p ∈ attrs, wfAttr p = true) :
    ∀ c ∈ attrsToString attrs, c ≠ '<' ∧ c ≠ '>' := by
  induction attrs with
  | nil => intro c hc; simp [attrsToString] at hc
  | cons p rest ih =>
    obtain ⟨k, v⟩ := p
    intro c hc
    obtain ⟨-, hkn, hvn⟩ := wfAttr_parts (h (k, v) (by simp))
    have hkc : c ∈ k → c ≠ '<' ∧ c ≠ '>' := fun hm =>
      ⟨(isNameChar_ne (hkn c hm)).1, (isNameChar_ne (hkn c hm)).2.1⟩
    simp only [attrsToString, List.mem_append] at hc
    rcases hc with hc | hc
    · split at hc
      · rw [List.mem_cons] at hc
        rcases hc with rfl | hc
        · exact ⟨by decide, by decide⟩
        · exact hkc hc
      · rw [List.mem_append, List.mem_append] at hc
        rcases hc with (hc | hc) | hc
        · rw [List.mem_cons] at hc
          rcases hc with rfl | hc
          · exact ⟨by decide, by decide⟩
          · exact hkc hc
        · rw [List.mem_cons, List.mem_cons] at hc
          rcases hc with rfl | hc
          · exact ⟨by decide, by decide⟩
          · rcases hc with rfl | hc
            · exact ⟨by decide, by decide⟩
            · exact ⟨(hvn c hc).2.1, (hvn c hc).2.2⟩
        · rw [List.mem_singleton] at hc
          subst hc
          exact ⟨by decide, by decide⟩
    · exact ih (fun p hp => h p (by simp [hp])) c hc

/-- Running the attribute loop over a serialized well-formed attribute list
appends exactly that list to the accumulator. -/
theorem scanAttrs_attrsToString : ∀ (attrs acc : List (List Char × List Char)),
    (∀ p ∈ attrs, wfAttr p = true) → distinctKeysB (attrs.map Prod.fst) = true →
    (∀ kk ∈ attrs.map Prod.fst, acc.any (fun p => p.1 == kk) = false) →
    scanAttrs (attrsToString attrs) acc = acc ++ attrs := by
  intro attrs
  induction attrs with
  | nil =>
    intro acc h1 h2 h3
    rw [show attrsToString [] = [] from rfl, scanAttrs_none (by rfl)]
    simp
  | cons p rest ih =>
    obtain ⟨k, v⟩ := p
    intro acc hwf hdk hacc
    obtain ⟨hk, hkn, hv⟩ := wfAttr_parts (hwf (k, v) (by simp))
    have hdk' : distinctKeysB (rest.map Prod.fst) = true ∧
        (rest.map Prod.fst).contains k = false := by
      simp only [List.map_cons, distinctKeysB, Bool.and_eq_true, Bool.not_eq_true'] at hdk
      exact ⟨hdk.2, hdk.1⟩
    have hwshape : attrsToString rest = [] ∨
        ∃ c w', attrsToString rest = ' ' :: c :: w' ∧ isNameChar c = true := by
      cases rest with
      | nil => exact Or.inl rfl
      | cons p2 r2 =>
        obtain ⟨k2, v2⟩ := p2
        obtain ⟨hk2, hkn2, -⟩ := wfAttr_parts (hwf (k2, v2) (by simp))
        obtain ⟨c2, k2', rfl⟩ : ∃ a b, k2 = a :: b := by
          cases k2 with
          | nil => exact absurd rfl hk2
          | cons a b => exact ⟨a, b, rfl⟩
        right
        by_cases hv2 : v2 = []
        · exact ⟨c2, k2' ++ attrsToString r2,
            by simp [attrsToString, hv2], hkn2 c2 (by simp)⟩
        · exact ⟨c2, (k2' ++ ('=' :: dquote :: v2) ++ [dquote]) ++ attrsToString r2,
            by simp [attrsToString, hv2, List.append_assoc], hkn2 c2 (by simp)⟩
    have hacck : acc.any (fun p => p.1 == k) = false := hacc k (by simp)
    have hacc' : ∀ kk ∈ rest.map Prod.fst,
        (acc ++ [(k, v)]).any (fun p => p.1 == kk) = false := by
      intro kk hkk
      rw [List.any_append]
      have h1 := hacc kk (by simp [hkk])
      have h2 : (k == kk) = false := by
        have := hdk'.2
        cases hbe : k == kk with
        | false => rfl
        | true =>
          have : k = kk := by simpa using hbe
          subst this
          rw [List.contains_eq_any_beq] at hdk'
          have h4 := hdk'.2
          have : (rest.map Prod.fst).any (fun x => k == x) = true := by
            rw [List.any_eq_true]
            exact ⟨k, hkk, by simp⟩
          rw [this] at h4
          cases h4
      simp [h1, h2]
    by_cases hv0 : v = []
    · subst hv0
      have hshape : attrsToString ((k, []) :: rest) = [' '] ++ (k ++ attrsToString rest) := by
        simp [attrsToString]
      have hexec : attrExec (attrsToString ((k, []) :: rest)) =
          some ((k, []), attrsToString rest) := by
        rw [hshape]
        exact attrExec_kOnly
          (by intro c hc; simp only [List.mem_singleton] at hc; subst hc; decide)
          hk hkn hwshape
      rw [scanAttrs_some hexec, insertAttr_new hacck,
        ih (acc ++ [(k, [])]) (fun p hp => hwf p (by simp [hp])) hdk'.1 hacc']
      simp
    · have hshape : attrsToString ((k, v) :: rest) =
          [' '] ++ (k ++ ('=' :: dquote :: (v ++ dquote :: attrsToString rest))) := by
        simp [attrsToString, hv0, List.append_assoc]
      have hexec : attrExec (attrsToString ((k, v) :: rest)) =
          some ((k, v), attrsToString rest) := by
        rw [hshape]
        exact attrExec_kv
          (by intro c hc; simp only [List.mem_singleton] at hc; subst hc; decide)
          hk hkn (fun c hc => (hv c hc).1)
      rw [scanAttrs_some hexec, insertAttr_new hacck,
        ih (acc ++ [(k, v)]) (fun p hp => hwf p (by simp [hp])) hdk'.1 hacc']
      simp

/-- The attribute extractor inverts the attribute serializer on well-formed
attribute lists (as reached through the parser: after a trim). -/
theorem extractAttributes_render {attrs : List (List Char × List Char)}
    (h : wfAttrs attrs = true) : extractAttributes (trim (attrsToString attrs)) = attrs := by
  obtain ⟨hall, hdk⟩ : (∀ p ∈ attrs, wfAttr p = true) ∧
      distinctKeysB (attrs.map Prod.fst) = true := by
    simp only [wfAttrs, Bool.and_eq_true, List.all_eq_true] at h
    exact h
  have htrim : trim (attrsToString attrs) = (attrsToString attrs).dropWhile isWS :=
    trim_no_trailing (fun c hc => by
      rcases attrsToString_last hall c hc with hn | rfl
      · exact isNameChar_not_ws hn
      · decide)
  have hstep : attrExec (trim (attrsToString attrs)) = attrExec (attrsToString attrs) := by
    apply attrExec_congr
    rw [htrim]
    apply dropWhile_dropWhile
    intro c hcw
    cases hn : isNameChar c with
    | false => rfl
    | true => rw [isNameChar_not_ws hn] at hcw; cases hcw
  have hsame : scanAttrs (trim (attrsToString attrs)) [] =
      scanAttrs (attrsToString attrs) [] := by
    cases hex : attrExec (attrsToString attrs) with
    | none => rw [scanAttrs_none (hstep.trans hex), scanAttrs_none hex]
    | some pr =>
      obtain ⟨⟨k, v⟩, rest⟩ := pr
      rw [scanAttrs_some (hstep.trans hex), scanAttrs_some hex]
  rw [extractAttributes_eq, hsame,
    scanAttrs_attrsToString attrs [] hall hdk (by intro kk _; rfl)]
  simp

/-! ### Generic opening-tag step lemmas -/

theorem scanStep_open_elem {html : List Char} {index i tagEnd endTagIndex : Nat}
    {full tagName : List Char}
    (hidx : index < html.length)
    (hfound : indexOfFrom html ['<'] index = some i)
    (hlen : i + 1 < html.length)
    (hcm : jsSubstring html i (i + 4) ≠ "<!--".data)
    (hslash : getC html (i + 1) ≠ '/')
    (hte : indexOfFrom html ['>'] i = some tagEnd)
    (hfull : trim (jsSubstring html (i + 1) tagEnd) = full)
    (hname : (full.takeWhile isNameChar).map Char.toLower = tagName)
    (hraw : ¬ (full.takeWhile isNameChar).length = 0)
    (hsc : (endsWithSlash full || voidTags.contains tagName) = false)
    (hscript : ¬ tagName = "script".data)
    (het : indexOfFrom html (('<' :: '/' :: tagName) ++ ['>']) (tagEnd + 1) =
      some endTagIndex) :
    scanStep html index =
      .elem (if (trim (jsSubstring html index i)).length > 0
          then [Node.text (trim (jsSubstring html index i))] else [])
        tagName
        (extractAttributes (trim (full.drop tagName.length)))
        (jsSubstring html (tagEnd + 1) endTagIndex)
        (endTagIndex + (('<' :: '/' :: tagName) ++ ['>']).length) := by
  have hop : getC html i = '<' :=
    indexOfFrom_lt_char (by omega) hfound (by omega)
  unfold scanStep
  rw [if_pos hidx, hfound]
  dsimp only
  rw [if_neg (by omega : ¬ i + 1 ≥ html.length), if_neg hcm,
    if_pos (⟨hop, hslash⟩ : getC html i = '<' ∧ getC html (i + 1) ≠ '/'), hte]
  dsimp only
  rw [hfull]
  rw [if_neg hraw]
  rw [hname]
  try dsimp only
  rw [het]
  dsimp only
  rw [if_neg (show ¬ ((endsWithSlash full || voidTags.contains tagName) = true) from by
    rw [hsc]
    simp)]
  rw [if_neg hscript]

theorem scanStep_open_void {html : List Char} {index i tagEnd : Nat}
    {full tagName : List Char}
    (hidx : index < html.length)
    (hfound : indexOfFrom html ['<'] index = some i)
    (hlen : i + 1 < html.length)
    (hcm : jsSubstring html i (i + 4) ≠ "<!--".data)
    (hslash : getC html (i + 1) ≠ '/')
    (hte : indexOfFrom html ['>'] i = some tagEnd)
    (hfull : trim (jsSubstring html (i + 1) tagEnd) = full)
    (hname : (full.takeWhile isNameChar).map Char.toLower = tagName)
    (hraw : ¬ (full.takeWhile isNameChar).length = 0)
    (hsc : (endsWithSlash full || voidTags.contains tagName) = true) :
    scanStep html index =
      .jump ((if (trim (jsSubstring html index i)).length > 0
          then [Node.text (trim (jsSubstring html index i))] else []) ++
        [Node.element tagName (extractAttributes (trim (full.drop tagName.length))) []])
        (tagEnd + 1) := by
  have hop : getC html i = '<' :=
    indexOfFrom_lt_char (by omega) hfound (by omega)
  unfold scanStep
  rw [if_pos hidx, hfound]
  dsimp only
  rw [if_neg (by omega : ¬ i + 1 ≥ html.length), if_neg hcm,
    if_pos (⟨hop, hslash⟩ : getC html i = '<' ∧ getC html (i + 1) ≠ '/'), hte]
  dsimp only
  rw [hfull]
  rw [if_neg hraw]
  rw [hname]
  try dsimp only
  cases het : indexOfFrom html (('<' :: '/' :: tagName) ++ ['>']) (tagEnd + 1) with
  | none => rfl
  | some endTagIndex =>
    dsimp only
    rw [if_pos hsc]

/-! ### Shape facts about rendered opening tags -/

theorem drop_concat (u t B : List Char) :
    (u ++ (t ++ B)).drop (u.length + t.length) = B := by
  rw [← List.append_assoc, show u.length + t.length = (u ++ t).length from
    (List.length_append u t).symm, List.drop_left]

theorem render_found (u t body : List Char) (ht : '<' ∉ t) :
    indexOfFrom (u ++ (t ++ ('<' :: body))) ['<'] u.length = some (u.length + t.length) := by
  rw [indexOfFrom_drop (by simp), List.drop_left, findSub_single_append ht]
  simp [Nat.add_comm]

theorem render_text (u t body : List Char) :
    jsSubstring (u ++ (t ++ ('<' :: body))) u.length (u.length + t.length) = t := by
  rw [jsSubstring_take (by simp) t.length, List.drop_left, List.take_left]

theorem render_comment_ne (u t tag A w : List Char) (htag : tag ≠ [])
    (htagn : ∀ c ∈ tag, isNameChar c = true) :
    jsSubstring (u ++ (t ++ ('<' :: ((tag ++ A) ++ ('>' :: w)))))
      (u.length + t.length) (u.length + t.length + 4) ≠ "<!--".data := by
  intro hc
  obtain ⟨c0, tag2, rfl⟩ : ∃ a b, tag = a :: b := by
    cases tag with
    | nil => exact absurd rfl htag
    | cons a b => exact ⟨a, b, rfl⟩
  rw [jsSubstring_take (by simp [List.length_append]; try omega) 4, drop_concat,
    show ("<!--".data : List Char) = ['<', '!', '-', '-'] from rfl] at hc
  simp only [List.cons_append, List.take_succ_cons, List.cons.injEq] at hc
  obtain ⟨-, hc0, -⟩ := hc
  have := htagn c0 (by simp)
  rw [hc0] at this
  exact absurd this (by decide)

theorem render_slash (u t tag A w : List Char) (htag : tag ≠ [])
    (htagn : ∀ c ∈ tag, isNameChar c = true) :
    getC (u ++ (t ++ ('<' :: ((tag ++ A) ++ ('>' :: w))))) (u.length + t.length + 1) ≠ '/' := by
  obtain ⟨c0, tag2, rfl⟩ : ∃ a b, tag = a :: b := by
    cases tag with
    | nil => exact absurd rfl htag
    | cons a b => exact ⟨a, b, rfl⟩
  have hg : getC (u ++ (t ++ ('<' :: (((c0 :: tag2) ++ A) ++ ('>' :: w)))))
      (u.length + t.length + 1) = c0 := by
    rw [getC_drop (by simp [List.length_append]; try omega), drop_concat]
    rfl
  rw [hg]
  exact (isNameChar_ne (htagn c0 (by simp))).2.2.1

theorem render_tagEnd (u t tag A w : List Char)
    (htagn : ∀ c ∈ tag, isNameChar c = true)
    (hA : ∀ c ∈ A, c ≠ '>') :
    indexOfFrom (u ++ (t ++ ('<' :: ((tag ++ A) ++ ('>' :: w))))) ['>']
      (u.length + t.length) =
      some (u.length + t.length + (1 + (tag.length + A.length))) := by
  have hgt : '>' ∉ '<' :: (tag ++ A) := by
    intro hm
    simp only [List.mem_cons, List.mem_append] at hm
    rcases hm with h1 | h1 | h1
    · exact absurd h1 (by decide)
    · exact absurd rfl (isNameChar_ne (htagn _ h1)).2.1
    · exact hA _ h1 rfl
  rw [indexOfFrom_drop (by simp [List.length_append]; try omega), drop_concat,
    show ('<' :: ((tag ++ A) ++ ('>' :: w))) = ('<' :: (tag ++ A)) ++ ('>' :: w) from by simp,
    findSub_single_append hgt]
  simp only [Option.map_some', List.length_cons, List.length_append]
  congr 1
  omega

theorem attrsToString_takeWhile (attrs : List (List Char × List Char)) :
    (attrsToString attrs).takeWhile isNameChar = [] := by
  cases attrs with
  | nil => rfl
  | cons p rest =>
    obtain ⟨k, v⟩ := p
    by_cases hv : v = []
    · rw [show attrsToString ((k, v) :: rest) = ' ' :: (k ++ attrsToString rest) from by
        simp [attrsToString, hv]]
      rw [List.takeWhile_cons_of_neg (by decide)]
    · rw [show attrsToString ((k, v) :: rest) =
          ' ' :: ((k ++ ('=' :: dquote :: v) ++ [dquote]) ++ attrsToString rest) from by
        simp [attrsToString, hv, List.append_assoc]]
      rw [List.takeWhile_cons_of_neg (by decide)]

theorem render_takeWhile (tag : List Char) (attrs : List (List Char × List Char))
    (htagn : ∀ c ∈ tag, isNameChar c = true) :
    (tag ++ attrsToString attrs).takeWhile isNameChar = tag := by
  rw [takeWhile_append_all (attrsToString attrs) htagn, attrsToString_takeWhile]
  simp

theorem tagAstr_last {tag : List Char} {attrs : List (List Char × List Char)}
    (htagn : ∀ c ∈ tag, isNameChar c = true)
    (hwfa : ∀ p ∈ attrs, wfAttr p = true) :
    ∀ c, (tag ++ attrsToString attrs).getLast? = some c →
      isWS c = false ∧ (c == '/') = false := by
  intro c hc
  rw [List.getLast?_append] at hc
  cases hA : (attrsToString attrs).getLast? with
  | some c2 =>
    rw [hA] at hc
    simp only [Option.or_some] at hc
    injection hc with hce
    rcases attrsToString_last hwfa c2 hA with hn | hd
    · rw [← hce]
      exact ⟨isNameChar_not_ws hn, by
        rw [beq_eq_false_iff_ne]
        exact (isNameChar_ne hn).2.2.1⟩
    · rw [← hce, hd]
      exact ⟨by decide, by decide⟩
  | none =>
    rw [hA] at hc
    simp only [Option.none_or] at hc
    have hn := htagn c (getLast_mem hc)
    exact ⟨isNameChar_not_ws hn, by
      rw [beq_eq_false_iff_ne]
      exact (isNameChar_ne hn).2.2.1⟩

theorem render_noslash (tag : List Char) (attrs : List (List Char × List Char))
    (htagn : ∀ c ∈ tag, isNameChar c = true)
    (hwfa : ∀ p ∈ attrs, wfAttr p = true) :
    endsWithSlash (tag ++ attrsToString attrs) = false := by
  unfold endsWithSlash
  cases hgl : (tag ++ attrsToString attrs).getLast? with
  | none => rfl
  | some c =>
    have h2 := (tagAstr_last htagn hwfa c hgl).2
    rw [beq_eq_false_iff_ne] at h2
    rw [beq_eq_false_iff_ne]
    intro heq
    injection heq with heq
    exact h2 heq

theorem render_full (u t tag A w : List Char) (htag : tag ≠ [])
    (hh : ∀ c, (tag ++ A).head? = some c → isWS c = false)
    (hl : ∀ c, (tag ++ A).getLast? = some c → isWS c = false) :
    trim (jsSubstring (u ++ (t ++ ('<' :: ((tag ++ A) ++ ('>' :: w)))))
      (u.length + t.length + 1) (u.length + t.length + (1 + (tag.length + A.length)))) =
      tag ++ A := by
  have hshift := jsSubstring_shift (l := u ++ (t ++ ('<' :: ((tag ++ A) ++ ('>' :: w)))))
    (i := u.length + t.length) (a := 1) (b := 1 + (tag.length + A.length))
    (by omega) (by simp [List.length_append]; omega)
  rw [hshift, drop_concat]
  rw [show ('<' :: ((tag ++ A) ++ ('>' :: w))).drop 1 = (tag ++ A) ++ ('>' :: w) from rfl]
  rw [show 1 + (tag.length + A.length) - 1 = (tag ++ A).length from by
    simp [List.length_append]]
  rw [List.take_left]
  exact trim_eq_self hh hl

theorem render_dropOpen (u t tag A R : List Char) :
    (u ++ (t ++ ('<' :: ((tag ++ A) ++ ('>' :: R))))).drop
      (u.length + t.length + (1 + (tag.length + A.length)) + 1) = R := by
  have h1 : u ++ (t ++ ('<' :: ((tag ++ A) ++ ('>' :: R)))) =
      (u ++ (t ++ (('<' :: (tag ++ A)) ++ ['>']))) ++ R := by simp
  have hP : u.length + t.length + (1 + (tag.length + A.length)) + 1 =
      (u ++ (t ++ (('<' :: (tag ++ A)) ++ ['>']))).length := by
    simp [List.length_append]
    try omega
  rw [h1, hP, List.drop_left]

theorem render_endTag (u t tag A C w : List Char)
    (hC : noHit C (('<' :: '/' :: tag) ++ ['>'])) :
    indexOfFrom (u ++ (t ++ ('<' :: ((tag ++ A) ++
        ('>' :: (C ++ ((('<' :: '/' :: tag) ++ ['>']) ++ w)))))))
      (('<' :: '/' :: tag) ++ ['>'])
      (u.length + t.length + (1 + (tag.length + A.length)) + 1) =
      some (u.length + t.length + (1 + (tag.length + A.length)) + 1 + C.length) := by
  rw [indexOfFrom_drop (by simp [List.length_append]; try omega), render_dropOpen,
    findSub_of_noHit hC, findSub_cons_of_begins (begins_append _ _)]
  simp only [Option.map_some']
  congr 1
  omega

theorem render_inner (u t tag A C w : List Char) :
    jsSubstring (u ++ (t ++ ('<' :: ((tag ++ A) ++
        ('>' :: (C ++ ((('<' :: '/' :: tag) ++ ['>']) ++ w)))))))
      (u.length + t.length + (1 + (tag.length + A.length)) + 1)
      (u.length + t.length + (1 + (tag.length + A.length)) + 1 + C.length) = C := by
  rw [jsSubstring_take (by simp [List.length_append]; try omega) C.length,
    render_dropOpen, List.take_left]

theorem render_head {tag : List Char} (A : List Char) (htag : tag ≠ [])
    (htagn : ∀ c ∈ tag, isNameChar c = true) :
    ∀ c, (tag ++ A).head? = some c → isWS c = false := by
  intro c hc
  obtain ⟨c0, tag2, rfl⟩ : ∃ a b, tag = a :: b := by
    cases tag with
    | nil => exact absurd rfl htag
    | cons a b => exact ⟨a, b, rfl⟩
  simp only [List.cons_append, List.head?_cons] at hc
  injection hc with hce
  rw [← hce]
  exact isNameChar_not_ws (htagn c0 (by simp))

/-- Scanning at a rendered void element (with any '<'-free text before it)
pushes the trimmed text and a childless element and jumps past the
rendered opening tag. -/
theorem scanStep_render_void (u t tag w : List Char) (attrs : List (List Char × List Char))
    (ht : '<' ∉ t) (htag : tag ≠ []) (htagn : ∀ c ∈ tag, isNameChar c = true)
    (htagl : tag.map Char.toLower = tag) (hwfa : wfAttrs attrs = true)
    (hvoid : voidTags.contains tag = true) :
    scanStep (u ++ (t ++ ('<' :: ((tag ++ attrsToString attrs) ++ ('>' :: w)))))
        u.length =
      .jump ((if (trim t).length > 0 then [Node.text (trim t)] else []) ++
          [Node.element tag attrs []])
        (u.length + t.length + (1 + (tag.length + (attrsToString attrs).length)) + 1) := by
  have hwfa2 : ∀ p ∈ attrs, wfAttr p = true := by
    simp only [wfAttrs, Bool.and_eq_true, List.all_eq_true] at hwfa
    exact hwfa.1
  have hfull := render_full u t tag (attrsToString attrs) w htag
    (render_head (attrsToString attrs) htag htagn)
    (fun c hc => (tagAstr_last htagn hwfa2 c hc).1)
  have hname : ((tag ++ attrsToString attrs).takeWhile isNameChar).map Char.toLower = tag := by
    rw [render_takeWhile tag attrs htagn]
    exact htagl
  have hraw : ¬ ((tag ++ attrsToString attrs).takeWhile isNameChar).length = 0 := by
    rw [render_takeWhile tag attrs htagn]
    intro h0
    exact htag (List.eq_nil_of_length_eq_zero h0)
  have hstep := scanStep_open_void
    (by simp [List.length_append, List.length_cons]; try omega)
    (render_found u t ((tag ++ attrsToString attrs) ++ ('>' :: w)) ht)
    (by simp [List.length_append, List.length_cons]; try omega)
    (render_comment_ne u t tag (attrsToString attrs) w htag htagn)
    (render_slash u t tag (attrsToString attrs) w htag htagn)
    (render_tagEnd u t tag (attrsToString attrs) w htagn
      (fun c hc => (attrsToString_no_angle hwfa2 c hc).2))
    hfull hname hraw
    (by rw [hvoid, Bool.or_true])
  rw [hstep, render_text u t ((tag ++ attrsToString attrs) ++ ('>' :: w)),
    List.drop_left, extractAttributes_render hwfa]

/-- Scanning at a rendered non-void, non-script element (with any '<'-free
text before it) yields the element step: the closing-tag search lands
exactly past the rendered children. -/
theorem scanStep_render_elem (u t tag C w : List Char) (attrs : List (List Char × List Char))
    (ht : '<' ∉ t) (htag : tag ≠ []) (htagn : ∀ c ∈ tag, isNameChar c = true)
    (htagl : tag.map Char.toLower = tag) (hwfa : wfAttrs attrs = true)
    (hvoid : voidTags.contains tag = false) (hscript : ¬ tag = "script".data)
    (hC : noHit C (('<' :: '/' :: tag) ++ ['>'])) :
    scanStep (u ++ (t ++ ('<' :: ((tag ++ attrsToString attrs) ++
        ('>' :: (C ++ ((('<' :: '/' :: tag) ++ ['>']) ++ w))))))) u.length =
      .elem (if (trim t).length > 0 then [Node.text (trim t)] else [])
        tag attrs C
        (u.length + t.length + (1 + (tag.length + (attrsToString attrs).length)) + 1 +
          C.length + (('<' :: '/' :: tag) ++ ['>']).length) := by
  have hwfa2 : ∀ p ∈ attrs, wfAttr p = true := by
    simp only [wfAttrs, Bool.and_eq_true, List.all_eq_true] at hwfa
    exact hwfa.1
  have hfull := render_full u t tag (attrsToString attrs)
    (C ++ ((('<' :: '/' :: tag) ++ ['>']) ++ w)) htag
    (render_head (attrsToString attrs) htag htagn)
    (fun c hc => (tagAstr_last htagn hwfa2 c hc).1)
  have hname : ((tag ++ attrsToString attrs).takeWhile isNameChar).map Char.toLower = tag := by
    rw [render_takeWhile tag attrs htagn]
    exact htagl
  have hraw : ¬ ((tag ++ attrsToString attrs).takeWhile isNameChar).length = 0 := by
    rw [render_takeWhile tag attrs htagn]
    intro h0
    exact htag (List.eq_nil_of_length_eq_zero h0)
  have hstep := scanStep_open_elem
    (by simp [List.length_append, List.length_cons]; try omega)
    (render_found u t ((tag ++ attrsToString attrs) ++
      ('>' :: (C ++ ((('<' :: '/' :: tag) ++ ['>']) ++ w)))) ht)
    (by simp [List.length_append, List.length_cons]; try omega)
    (render_comment_ne u t tag (attrsToString attrs)
      (C ++ ((('<' :: '/' :: tag) ++ ['>']) ++ w)) htag htagn)
    (render_slash u t tag (attrsToString attrs)
      (C ++ ((('<' :: '/' :: tag) ++ ['>']) ++ w)) htag htagn)
    (render_tagEnd u t tag (attrsToString attrs)
      (C ++ ((('<' :: '/' :: tag) ++ ['>']) ++ w)) htagn
      (fun c hc => (attrsToString_no_angle hwfa2 c hc).2))
    hfull hname hraw
    (by rw [render_noslash tag attrs htagn hwfa2, hvoid]; rfl)
    hscript
    (render_endTag u t tag (attrsToString attrs) C w hC)
  rw [hstep, render_text u t ((tag ++ attrsToString attrs) ++
      ('>' :: (C ++ ((('<' :: '/' :: tag) ++ ['>']) ++ w)))),
    List.drop_left, extractAttributes_render hwfa,
    render_inner u t tag (attrsToString attrs) C w]

/-! ### Destructors for the well-formedness predicates -/

theorem nsize_pos (n : Node) : 1 ≤ nsize n := by
  cases n with
  | text s => exact le_refl 1
  | comment s => exact le_refl 1
  | element t a c =>
    rw [show nsize (.element t a c) = 1 + nsizeList c from rfl]
    omega

theorem wfAttrs_all {attrs : List (List Char × List Char)} (h : wfAttrs attrs = true) :
    ∀ p ∈ attrs, wfAttr p = true := by
  simp only [wfAttrs, Bool.and_eq_true, List.all_eq_true] at h
  exact h.1

theorem wfSeq_cons {a : Node} {l : List Node} (h : wfSeq (a :: l) = true) :
    wfNode a = true ∧ wfSeq l = true := by
  cases l with
  | nil => exact ⟨h, rfl⟩
  | cons b r =>
    simp only [wfSeq, Bool.and_eq_true] at h
    exact ⟨h.1.1, h.2⟩

theorem wfSeq_mem : ∀ {l : List Node}, wfSeq l = true → ∀ n ∈ l, wfNode n = true := by
  intro l
  induction l with
  | nil => intro _ n hn; simp at hn
  | cons a t ih =>
    intro h n hn
    obtain ⟨h1, h2⟩ := wfSeq_cons h
    rcases List.mem_cons.mp hn with rfl | hn
    · exact h1
    · exact ih h2 n hn

theorem wfText_parts {s : List Char} (h : wfNode (.text s) = true) :
    s ≠ [] ∧ trim s = s ∧ '<' ∉ s := by
  simp only [wfNode, Bool.and_eq_true] at h
  obtain ⟨⟨h1, h2⟩, h3⟩ := h
  refine ⟨by simpa using h1, by simpa using h2, ?_⟩
  intro hm
  simp only [Bool.not_eq_true'] at h3
  rw [List.contains_eq_any_beq] at h3
  have : (s.any fun x => '<' == x) = true := List.any_eq_true.mpr ⟨'<', hm, by simp⟩
  rw [this] at h3
  cases h3

theorem wfElem_parts {tag : List Char} {attrs : List (List Char × List Char)}
    {children : List Node} (h : wfNode (.element tag attrs children) = true) :
    tag ≠ [] ∧ (∀ c ∈ tag, isNameChar c = true) ∧ tag.map Char.toLower = tag ∧
      tag ≠ "script".data ∧ wfAttrs attrs = true ∧
      (tagsOfList children).contains tag = false ∧
      (voidTags.contains tag = true → children = []) ∧
      (voidTags.contains tag = false → wfSeq children = true) := by
  simp only [wfNode, Bool.and_eq_true] at h
  obtain ⟨⟨⟨⟨⟨⟨h1, h2⟩, h3⟩, h4⟩, h5⟩, h6⟩, h7⟩ := h
  refine ⟨by simpa using h1, ?_, by simpa using h3, by simpa using h4, h5,
    by simpa using h6, ?_, ?_⟩
  · intro c hc
    exact List.all_eq_true.mp h2 c hc
  · intro hv
    rw [if_pos hv] at h7
    cases children with
    | nil => rfl
    | cons a b => simp [List.isEmpty] at h7
  · intro hv
    rwa [if_neg (by rw [hv]; simp)] at h7

theorem contains_append_false {a : List Char} {l1 l2 : List (List Char)}
    (h : (l1 ++ l2).contains a = false) :
    l1.contains a = false ∧ l2.contains a = false := by
  rw [List.contains_eq_any_beq, List.any_append] at h
  have h2 := h
  cases hb1 : l1.any (a == ·) with
  | true => rw [hb1] at h2; simp at h2
  | false =>
    rw [hb1] at h2
    simp only [Bool.false_or] at h2
    exact ⟨by rw [List.contains_eq_any_beq]; exact hb1,
      by rw [List.contains_eq_any_beq]; exact h2⟩

/-! ### No closing tag occurs inside rendered well-formed children -/

theorem noHit_cons {x : Char} {w s : List Char}
    (h0 : ∀ v, begins ((x :: w) ++ v) s = false) (h1 : noHit w s) : noHit (x :: w) s := by
  intro v j hj
  cases j with
  | zero => simpa using h0 v
  | succ j2 =>
    have hj2 : j2 < w.length := by simp at hj; omega
    have := h1 v j2 hj2
    simpa using this

theorem noHit_open {g A : List Char} (s : List Char) (htag2 : g ≠ [])
    (htagn2 : ∀ c ∈ g, isNameChar c = true) (hA : '<' ∉ A) :
    noHit (('<' :: (g ++ A)) ++ ['>']) ('<' :: '/' :: s) := by
  obtain ⟨c0, t2, rfl⟩ : ∃ a b, g = a :: b := by
    cases g with
    | nil => exact absurd rfl htag2
    | cons a b => exact ⟨a, b, rfl⟩
  rw [show ('<' :: ((c0 :: t2) ++ A)) ++ ['>'] = '<' :: (((c0 :: t2) ++ A) ++ ['>'])
    from by simp]
  have hbody : '<' ∉ ((c0 :: t2) ++ A) ++ ['>'] := by
    intro hm
    simp only [List.mem_append, List.mem_cons, List.mem_singleton] at hm
    rcases hm with (hm | hm) | hm
    · rcases hm with hm1 | hm1
      · have := htagn2 c0 (by simp)
        rw [← hm1] at this
        exact absurd this (by decide)
      · have := htagn2 '<' (by simp [hm1])
        exact absurd this (by decide)
    · exact hA hm
    · exact absurd hm (by decide)
  refine noHit_cons ?_ (noHit_no_lt hbody _)
  intro v
  have hc0 : (c0 == '/') = false := by
    rw [beq_eq_false_iff_ne]
    exact (isNameChar_ne (htagn2 c0 (by simp))).2.2.1
  simp [begins, hc0]

theorem jsonToHtml_nonvoid {t : List Char} (attrs : List (List Char × List Char))
    (children : List Node) (h : voidTags.contains t = false) :
    jsonToHtml (.element t attrs children) =
      (('<' :: (t ++ attrsToString attrs)) ++ ['>']) ++ jsonToHtmlList children ++
        (('<' :: '/' :: t) ++ ['>']) := by
  rw [jsonToHtml]
  try dsimp only
  rw [if_neg (by rw [h]; simp)]

/-- In the rendering of a sequence of well-formed nodes none of which uses
(or contains) the element name tag, no occurrence of the closing tag of tag
can begin. -/
theorem render_noHit : ∀ (f : Nat) (ns : List Node) (g : List Char),
    nsizeList ns ≤ f →
    (∀ c ∈ g, isNameChar c = true) →
    (∀ n ∈ ns, wfNode n = true) →
    (tagsOfList ns).contains g = false →
    noHit (jsonToHtmlList ns) (('<' :: '/' :: g) ++ ['>']) := by
  intro f
  induction f with
  | zero =>
    intro ns g hsz _ _ _
    cases ns with
    | nil => exact noHit_nil _
    | cons n r =>
      exfalso
      rw [show nsizeList (n :: r) = nsize n + nsizeList r from rfl] at hsz
      have := nsize_pos n
      omega
  | succ f ih =>
    intro ns g hsz htagn hwf hcontains
    cases ns with
    | nil => exact noHit_nil _
    | cons n r =>
      rw [show jsonToHtmlList (n :: r) = jsonToHtml n ++ jsonToHtmlList r from rfl]
      rw [show nsizeList (n :: r) = nsize n + nsizeList r from rfl] at hsz
      rw [show tagsOfList (n :: r) = tagsOf n ++ tagsOfList r from rfl] at hcontains
      obtain ⟨hc1, hc2⟩ := contains_append_false hcontains
      have hszr : nsizeList r ≤ f := by
        have := nsize_pos n
        omega
      refine noHit_append ?_ (ih r g hszr htagn (fun m hm => hwf m (by simp [hm])) hc2)
      cases n with
      | text s =>
        obtain ⟨-, -, hlt⟩ := wfText_parts (hwf (.text s) (by simp))
        exact noHit_no_lt hlt _
      | comment s =>
        have := hwf (.comment s) (by simp)
        rw [show wfNode (.comment s) = false from rfl] at this
        cases this
      | element g2 attrs2 children2 =>
        obtain ⟨htag2, htagn2, htagl2, hscript2, hwfa2, hcc, hvoidE, hvoidN⟩ :=
          wfElem_parts (hwf (.element g2 attrs2 children2) (by simp))
        have hne : g ≠ g2 := by
          rw [show tagsOf (Node.element g2 attrs2 children2) =
            g2 :: tagsOfList children2 from rfl, List.contains_eq_any_beq] at hc1
          simp only [List.any_cons] at hc1
          cases hb : g == g2 with
          | true =>
            rw [hb] at hc1
            simp at hc1
          | false =>
            rw [beq_eq_false_iff_ne] at hb
            exact hb
        have hAnl : '<' ∉ attrsToString attrs2 := by
          intro hm
          exact (attrsToString_no_angle (wfAttrs_all hwfa2) '<' hm).1 rfl
        cases hv : voidTags.contains g2 with
        | true =>
          rw [jsonToHtml_void attrs2 children2 hv]
          exact noHit_open _ htag2 htagn2 hAnl
        | false =>
          rw [jsonToHtml_nonvoid attrs2 children2 hv]
          have hsz2 : nsizeList children2 ≤ f := by
            rw [show nsize (Node.element g2 attrs2 children2) =
              1 + nsizeList children2 from rfl] at hsz
            omega
          have hcc2 : (tagsOfList children2).contains g = false := by
            rw [show tagsOf (Node.element g2 attrs2 children2) =
              g2 :: tagsOfList children2 from rfl, List.contains_eq_any_beq] at hc1
            simp only [List.any_cons] at hc1
            rw [List.contains_eq_any_beq]
            cases hb : (tagsOfList children2).any (g == ·) with
            | false => rfl
            | true =>
              rw [hb] at hc1
              simp at hc1
          refine noHit_append (noHit_append ?_ ?_) ?_
          · exact noHit_open _ htag2 htagn2 hAnl
          · exact ih children2 g hsz2 htagn (wfSeq_mem (hvoidN hv)) hcc2
          · exact noHit_close hne htagn htagn2

/-! ### One-step unfolding of the scanning loop -/

theorem scan_stop {html : List Char} {index : Nat} {ns : List Node}
    (h : scanStep html index = .stop ns) : scan html index = ns := by
  rw [scan, h]

theorem scan_jump {html : List Char} {index : Nat} {ns : List Node} {next : Nat}
    (h : scanStep html index = .jump ns next) :
    scan html index = ns ++ scan html next := by
  rw [scan, h]

theorem scan_elem {html : List Char} {index : Nat} {pre : List Node} {g : List Char}
    {attrs : List (List Char × List Char)} {inner : List Char} {next : Nat}
    (h : scanStep html index = .elem pre g attrs inner next) :
    scan html index = pre ++ (Node.element g attrs (scan inner 0) :: scan html next) := by
  rw [scan, h]

theorem scan_render_nil (u : List Char) : scan (u ++ jsonToHtmlList []) u.length = [] := by
  apply scan_stop
  unfold scanStep
  rw [if_neg (by simp [jsonToHtmlList])]

/-- The element-at-the-cursor case of the round trip: scanning at the
rendering of a well-formed element (preceded by '<'-free text) pushes the
trimmed text node, rebuilds the element with its children reparsed, and
continues into the rendering of the rest. -/
theorem scan_render_step {f : Nat}
    (IH : ∀ (ms : List Node) (v : List Char), nsizeList ms ≤ f → wfSeq ms = true →
      scan (v ++ jsonToHtmlList ms) v.length = ms)
    (u t g : List Char) (a : List (List Char × List Char)) (c rest : List Node)
    (ht : '<' ∉ t)
    (hwfe : wfNode (.element g a c) = true)
    (hwfrest : wfSeq rest = true)
    (hszc : nsizeList c ≤ f) (hszr : nsizeList rest ≤ f) :
    scan (u ++ (t ++ (jsonToHtml (.element g a c) ++ jsonToHtmlList rest))) u.length =
      (if (trim t).length > 0 then [Node.text (trim t)] else []) ++
        (Node.element g a c :: rest) := by
  obtain ⟨hg1, hg2, hg3, hg4, hg5, hg6, hg7, hg8⟩ := wfElem_parts hwfe
  cases hv : voidTags.contains g with
  | true =>
    have hcE : c = [] := hg7 hv
    subst hcE
    rw [jsonToHtml_void a [] hv]
    have hshape : u ++ (t ++ (((('<' :: (g ++ attrsToString a)) ++ ['>'])) ++
        jsonToHtmlList rest)) =
        u ++ (t ++ ('<' :: ((g ++ attrsToString a) ++ ('>' :: jsonToHtmlList rest)))) := by
      simp
    rw [hshape]
    have hstep := scanStep_render_void u t g (jsonToHtmlList rest) a ht hg1 hg2 hg3 hg5 hv
    rw [scan_jump hstep]
    have hIH := IH rest (u ++ (t ++ (('<' :: (g ++ attrsToString a)) ++ ['>']))) hszr hwfrest
    have hhtml : u ++ (t ++ ('<' :: ((g ++ attrsToString a) ++ ('>' :: jsonToHtmlList rest)))) =
        (u ++ (t ++ (('<' :: (g ++ attrsToString a)) ++ ['>']))) ++ jsonToHtmlList rest := by
      simp
    have hnext : u.length + t.length + (1 + (g.length + (attrsToString a).length)) + 1 =
        (u ++ (t ++ (('<' :: (g ++ attrsToString a)) ++ ['>']))).length := by
      simp [List.length_append]
      try omega
    rw [hhtml, hnext, hIH]
    simp
  | false =>
    have hwfc : wfSeq c = true := hg8 hv
    rw [jsonToHtml_nonvoid a c hv]
    have hshape : u ++ (t ++ ((((('<' :: (g ++ attrsToString a)) ++ ['>']) ++
        jsonToHtmlList c ++ (('<' :: '/' :: g) ++ ['>']))) ++ jsonToHtmlList rest)) =
        u ++ (t ++ ('<' :: ((g ++ attrsToString a) ++
          ('>' :: (jsonToHtmlList c ++ ((('<' :: '/' :: g) ++ ['>']) ++
            jsonToHtmlList rest)))))) := by
      simp
    rw [hshape]
    have hC : noHit (jsonToHtmlList c) (('<' :: '/' :: g) ++ ['>']) :=
      render_noHit f c g hszc hg2 (wfSeq_mem hwfc) hg6
    have hstep := scanStep_render_elem u t g (jsonToHtmlList c) (jsonToHtmlList rest) a
      ht hg1 hg2 hg3 hg5 hv hg4 hC
    rw [scan_elem hstep]
    have hchildren : scan (jsonToHtmlList c) 0 = c := by
      have := IH c [] hszc hwfc
      simpa using this
    have hIH := IH rest (u ++ (t ++ ((('<' :: (g ++ attrsToString a)) ++ ['>']) ++
      (jsonToHtmlList c ++ (('<' :: '/' :: g) ++ ['>']))))) hszr hwfrest
    have hhtml : u ++ (t ++ ('<' :: ((g ++ attrsToString a) ++
        ('>' :: (jsonToHtmlList c ++ ((('<' :: '/' :: g) ++ ['>']) ++
          jsonToHtmlList rest)))))) =
        (u ++ (t ++ ((('<' :: (g ++ attrsToString a)) ++ ['>']) ++
          (jsonToHtmlList c ++ (('<' :: '/' :: g) ++ ['>']))))) ++ jsonToHtmlList rest := by
      simp
    have hnext : u.length + t.length + (1 + (g.length + (attrsToString a).length)) + 1 +
        (jsonToHtmlList c).length + (('<' :: '/' :: g) ++ ['>']).length =
        (u ++ (t ++ ((('<' :: (g ++ attrsToString a)) ++ ['>']) ++
          (jsonToHtmlList c ++ (('<' :: '/' :: g) ++ ['>']))))).length := by
      simp [List.length_append]
      try omega
    rw [hchildren, hhtml, hnext, hIH]

/-- The round trip: scanning the rendering of a well-formed node sequence,
past an arbitrary consumed prefix, recovers exactly that sequence. -/
theorem scan_render : ∀ (f : Nat) (ns : List Node) (u : List Char),
    nsizeList ns ≤ f → wfSeq ns = true →
    scan (u ++ jsonToHtmlList ns) u.length = ns := by
  intro f
  induction f with
  | zero =>
    intro ns u hsz hwf
    cases ns with
    | nil => exact scan_render_nil u
    | cons n r =>
      exfalso
      rw [show nsizeList (n :: r) = nsize n + nsizeList r from rfl] at hsz
      have := nsize_pos n
      omega
  | succ f ih =>
    intro ns u hsz hwf
    cases ns with
    | nil => exact scan_render_nil u
    | cons n r =>
      obtain ⟨hwfn, hwfr⟩ := wfSeq_cons hwf
      rw [show nsizeList (n :: r) = nsize n + nsizeList r from rfl] at hsz
      have hszr : nsizeList r ≤ f := by
        have := nsize_pos n
        omega
      cases n with
      | comment s =>
        rw [show wfNode (.comment s) = false from rfl] at hwfn
        cases hwfn
      | element g a c =>
        have hszc : nsizeList c ≤ f := by
          rw [show nsize (Node.element g a c) = 1 + nsizeList c from rfl] at hsz
          omega
        rw [show jsonToHtmlList (Node.element g a c :: r) =
          [] ++ (jsonToHtml (.element g a c) ++ jsonToHtmlList r) from rfl]
        exact (scan_render_step ih u [] g a c r (by simp) hwfn hwfr hszc hszr).trans
          (by simp [trim])
      | text s =>
        obtain ⟨hne, hstrim, hnolt⟩ := wfText_parts hwfn
        cases r with
        | nil =>
          rw [show jsonToHtmlList [Node.text s] = s from by
            simp [jsonToHtmlList, jsonToHtml]]
          apply scan_stop
          have hnone : indexOfFrom (u ++ s) ['<'] u.length = none := by
            rw [indexOfFrom_drop (by simp), List.drop_left, findSub_single_none hnolt]
            rfl
          unfold scanStep
          rw [if_pos (by
            simp only [List.length_append]
            have := List.length_pos.mpr hne
            omega), hnone]
          dsimp only
          rw [List.drop_left, hstrim,
            if_pos (by have := List.length_pos.mpr hne; omega : s.length > 0)]
        | cons m r2 =>
          cases m with
          | text s2 =>
            exfalso
            simp [wfSeq, isTextNode] at hwf
          | comment s2 =>
            have h2 := (wfSeq_cons hwfr).1
            rw [show wfNode (.comment s2) = false from rfl] at h2
            cases h2
          | element g a c =>
            obtain ⟨hwfe, hwfr2⟩ := wfSeq_cons hwfr
            have hszc : nsizeList c ≤ f := by
              rw [show nsizeList (Node.element g a c :: r2) =
                nsize (Node.element g a c) + nsizeList r2 from rfl,
                show nsize (Node.element g a c) = 1 + nsizeList c from rfl] at hsz
              omega
            have hszr2 : nsizeList r2 ≤ f := by
              rw [show nsizeList (Node.element g a c :: r2) =
                nsize (Node.element g a c) + nsizeList r2 from rfl] at hsz
              have := nsize_pos (Node.element g a c)
              omega
            rw [show jsonToHtmlList (Node.text s :: Node.element g a c :: r2) =
              s ++ (jsonToHtml (.element g a c) ++ jsonToHtmlList r2) from rfl]
            refine (scan_render_step ih u s g a c r2 hnolt hwfe hwfr2 hszc hszr2).trans ?_
            rw [hstrim, if_pos (by have := List.length_pos.mpr hne; omega : s.length > 0)]
            rfl

/-! ### C1: the round-trip claim -/

/-- C1 counterexample: the claimed whitespace-normalized round trip fails
even on a well-formed document with a single element: the parser trims the
inner text at the tag boundary, so the leading space inside "<b> a</b>" is
dropped entirely by parse-then-serialize, while normalizing the original
only collapses runs of whitespace (it does not remove a single interior
space); the two normal forms differ. -/
theorem C1_counterexample :
    htmlToJson "<b> a</b>".data = [Node.element "b".data [] [Node.text "a".data]] ∧
      normalize (jsonToHtmlList (htmlToJson "<b> a</b>".data)) ≠
        normalize "<b> a</b>".data := by
  have he : htmlToJson "<b> a</b>".data =
      [Node.element "b".data [] [Node.text "a".data]] := htmlToJson_eval (by rfl)
  refine ⟨he, ?_⟩
  rw [he]
  intro hC
  exact absurd (congrArg List.length hC) (by decide)

/-- C1 amended: for documents generated from a well-formed node sequence —
text runs non-empty, already trimmed, free of the markup character < and
never adjacent to another text run; elements with non-empty lowercase
name-character tags, well-formed attributes (distinct name-character keys,
values free of the quote and angle characters), not raw-text (script),
void elements childless, and no element containing its own tag among its
descendants (the single, unique-tag, non-overlapping condition) — the
round trip is exact: parsing the serialization returns the very same node
sequence, hence serializing again reproduces the document byte for byte,
and in particular up to whitespace normalization. -/
theorem C1_round_trip (ns : List Node) (h : wfSeq ns = true) :
    htmlToJson (jsonToHtmlList ns) = ns ∧
      jsonToHtmlList (htmlToJson (jsonToHtmlList ns)) = jsonToHtmlList ns ∧
      normalize (jsonToHtmlList (htmlToJson (jsonToHtmlList ns))) =
        normalize (jsonToHtmlList ns) := by
  have h1 : htmlToJson (jsonToHtmlList ns) = ns := by
    have := scan_render (nsizeList ns) ns [] (le_refl _) h
    simpa [htmlToJson] using this
  exact ⟨h1, by rw [h1], by rw [h1]⟩

/-- A concrete well-formed document tree: text, an element with a valued
and a boolean attribute, a void child, a nested element and trailing
text. -/
def wfExample : List Node :=
  [Node.text "hi".data,
   Node.element "div".data [("id".data, "a".data), ("hidden".data, [])]
     [Node.text "x".data, Node.element "br".data [] [],
      Node.element "em".data [] [Node.text "y".data]],
   Node.text "bye".data]

/-- C1 witness: the exact round trip on a concrete well-formed tree. -/
theorem C1_round_trip_witness :
    wfSeq wfExample = true ∧
      (htmlToJson (jsonToHtmlList wfExample) = wfExample ∧
        jsonToHtmlList (htmlToJson (jsonToHtmlList wfExample)) =
          jsonToHtmlList wfExample ∧
        normalize (jsonToHtmlList (htmlToJson (jsonToHtmlList wfExample))) =
          normalize (jsonToHtmlList wfExample)) :=
  ⟨by decide, C1_round_trip wfExample (by decide)⟩

end Json2Html
